import Mathlib

/-!
Shallow embedding of the parameter-descriptor and calibration engine of the
`prospector` repository (files `bsfh/sedmodel.py` and
`prospect/models/sedmodel.py`), together with proofs about the embedded
operations.  Machine floats are modelled by exact rationals `ℚ`; numpy arrays
by `List ℚ`; Python exceptions by `Option`/`Except` results.
-/

namespace SpecProof

/-- Model of the numpy/Python slice `t[i0 : i0 + N]`. -/
def slice (t : List ℚ) (i0 N : Nat) : List ℚ := (t.drop i0).take N

/-- Model of the in-place slice assignment `t[i0 : i0 + len(xs)] = xs`
(as the resulting array value). -/
def setSlice (t : List ℚ) (i0 : Nat) (xs : List ℚ) : List ℚ :=
  t.take i0 ++ xs ++ t.drop (i0 + xs.length)

theorem slice_length (t : List ℚ) (i0 N : Nat) (h : i0 + N ≤ t.length) :
    (slice t i0 N).length = N := by
  simp [slice]
  omega

theorem getElem?_slice (t : List ℚ) (i0 N k : Nat) :
    (slice t i0 N)[k]? = if k < N then t[i0 + k]? else none := by
  by_cases hk : k < N
  · simp [slice, hk, List.getElem?_take, List.getElem?_drop]
  · simp [slice, hk, List.getElem?_eq_none_iff]
    omega

theorem length_setSlice (t : List ℚ) (i0 : Nat) (xs : List ℚ)
    (h : xs ≠ [] → i0 + xs.length ≤ t.length) :
    (setSlice t i0 xs).length = t.length := by
  rcases xs with _ | ⟨x, xs⟩
  · simp [setSlice]
  · have := h (by simp)
    simp only [List.length_cons] at this
    simp only [setSlice, List.length_append, List.length_take, List.length_drop,
      List.length_cons]
    omega

theorem setSlice_nil (t : List ℚ) (i0 : Nat) : setSlice t i0 [] = t := by
  simp [setSlice]

theorem getElem?_setSlice (t xs : List ℚ) (i0 j : Nat)
    (h : i0 + xs.length ≤ t.length) :
    (setSlice t i0 xs)[j]? =
      if i0 ≤ j ∧ j < i0 + xs.length then xs[j - i0]? else t[j]? := by
  have hi0 : i0 ≤ t.length := by omega
  unfold setSlice
  rw [List.append_assoc, List.getElem?_append, List.getElem?_append]
  simp only [List.length_take, Nat.min_eq_left hi0, List.getElem?_take, List.getElem?_drop]
  split_ifs <;> first
    | rfl
    | omega
    | (congr 1; omega)

/-!
Data model of `bsfh/sedmodel.py`: a `theta_desc` is a Python dict mapping a
parameter name to a dict with keys `i0`, `N` and optionally `upper`, `lower`,
`prior_function`, `prior_args` (itself holding `mini`/`maxi` and the keyword
arguments of the prior).  A Python dict with unique keys and a fixed iteration
order is modelled as a `List` of entries whose names are `Nodup`.
Walls (`upper`/`lower`) are modelled as optional scalars: the reflection
assignment `theta[start:end][above] = 2*upper - theta[start:end][above]`
broadcasts `upper` against the masked selection, which is only
shape-compatible for a scalar wall (a length-`N` wall array would fail to
broadcast whenever only part of the slice violates).
Prior functions receive `prior_args` as keyword arguments; since both the
function and its arguments are opaque data to this module, the model stores
the function with its keyword arguments already applied.
`prior_args['mini']` / `prior_args['maxi']` are modelled as lists, a numpy
scalar being a one-element list (numpy's `np.size` and indexing treat a scalar
exactly like a one-element array in the `bounds` code path).
-/

structure ThetaDescEntry where
  name : String
  i0 : Nat
  N : Nat
  upper : Option ℚ := none
  lower : Option ℚ := none
  prior_function : Option (List ℚ → List ℚ) := none
  mini : List ℚ := []
  maxi : List ℚ := []

/-- The `params` attribute: a Python dict from parameter name to value array. -/
def Params : Type := String → Option (List ℚ)

/-- Model of `self.ndim`, computed in `__init__` as the sum of all entries'
`N` fields. -/
def ndim (desc : List ThetaDescEntry) : Nat := (desc.map (·.N)).sum

/-- The list of flat-vector indices covered by the descriptor's ranges
(with multiplicity). -/
def covers (desc : List ThetaDescEntry) : List Nat :=
  (desc.map (fun e => (List.range e.N).map (e.i0 + ·))).flatten

/-- The descriptor's index ranges partition `[0, n)`: every flat slot is
covered exactly once. -/
def partitions (desc : List ThetaDescEntry) (n : Nat) : Prop :=
  List.Perm (covers desc) (List.range n)

/-- Model of `ThetaParameters.set_parameters`: asserts `len(theta) == ndim`
(`none` models the `AssertionError`), then overwrites `params[p]` with
`np.array(theta[i0 : i0+N])` for every descriptor entry. -/
def set_parameters (desc : List ThetaDescEntry) (ps : Params) (theta : List ℚ) :
    Option Params :=
  if theta.length = ndim desc then
    some (desc.foldl
      (fun ps e k => if k = e.name then some (slice theta e.i0 e.N) else ps k) ps)
  else none

/-- Model of `ThetaParameters.theta_from_params`: starts from
`np.zeros(ndim)` and writes `params[p]` into `theta[i0 : i0+N]` for every
entry; `none` models the `KeyError` raised when a name is absent from
`params`. -/
def theta_from_params (desc : List ThetaDescEntry) (ps : Params) :
    Option (List ℚ) :=
  desc.foldlM
    (fun acc e => (ps e.name).map (fun vals => setSlice acc e.i0 vals))
    (List.replicate (ndim desc) 0)

theorem mem_covers {desc : List ThetaDescEntry} {j : Nat} :
    j ∈ covers desc ↔ ∃ e ∈ desc, e.i0 ≤ j ∧ j < e.i0 + e.N := by
  simp only [covers, List.mem_flatten, List.mem_map]
  constructor
  · rintro ⟨l, ⟨e, he, rfl⟩, hj⟩
    rcases List.mem_map.mp hj with ⟨k, hk, rfl⟩
    rw [List.mem_range] at hk
    exact ⟨e, he, by omega, by omega⟩
  · rintro ⟨e, he, h1, h2⟩
    refine ⟨_, ⟨e, he, rfl⟩, List.mem_map.mpr ⟨j - e.i0, ?_, by omega⟩⟩
    rw [List.mem_range]
    omega

theorem covers_cons (e : ThetaDescEntry) (rest : List ThetaDescEntry) :
    covers (e :: rest) = (List.range e.N).map (e.i0 + ·) ++ covers rest := by
  simp [covers]

theorem mem_covers_cons {e : ThetaDescEntry} {rest : List ThetaDescEntry} {j : Nat} :
    j ∈ covers (e :: rest) ↔
      (e.i0 ≤ j ∧ j < e.i0 + e.N) ∨ j ∈ covers rest := by
  rw [covers_cons, List.mem_append]
  constructor
  · rintro (h | h)
    · rcases List.mem_map.mp h with ⟨k, hk, rfl⟩
      rw [List.mem_range] at hk
      exact Or.inl ⟨by omega, by omega⟩
    · exact Or.inr h
  · rintro (⟨h1, h2⟩ | h)
    · refine Or.inl (List.mem_map.mpr ⟨j - e.i0, ?_, by omega⟩)
      rw [List.mem_range]
      omega
    · exact Or.inr h

theorem entry_range_le_of_partitions {desc : List ThetaDescEntry} {n : Nat}
    (h : partitions desc n) :
    ∀ e ∈ desc, e.N ≠ 0 → e.i0 + e.N ≤ n := by
  intro e he hN
  have hmem : e.i0 + (e.N - 1) ∈ covers desc :=
    mem_covers.mpr ⟨e, he, by omega, by omega⟩
  have := h.mem_iff.mp hmem
  rw [List.mem_range] at this
  omega

/-- After the `set_parameters` fold, a name not occurring in the descriptor
keeps its previous value. -/
theorem setp_fold_notmem (theta : List ℚ) :
    ∀ (desc : List ThetaDescEntry) (ps : Params) (k : String),
      k ∉ desc.map (·.name) →
      desc.foldl
        (fun ps e k => if k = e.name then some (slice theta e.i0 e.N) else ps k)
        ps k = ps k := by
  intro desc
  induction desc with
  | nil => intro ps k _; rfl
  | cons f rest ih =>
      intro ps k hk
      simp only [List.map_cons, List.mem_cons, not_or] at hk
      rw [List.foldl_cons, ih _ k hk.2]
      simp [hk.1]

/-- After the `set_parameters` fold, every descriptor entry's name maps to the
matching slice of `theta` (descriptor names are unique, being dict keys). -/
theorem setp_fold_mem (theta : List ℚ) :
    ∀ (desc : List ThetaDescEntry) (ps : Params) (e : ThetaDescEntry),
      e ∈ desc → (desc.map (·.name)).Nodup →
      desc.foldl
        (fun ps e k => if k = e.name then some (slice theta e.i0 e.N) else ps k)
        ps e.name = some (slice theta e.i0 e.N) := by
  intro desc
  induction desc with
  | nil => intro _ _ he; exact absurd he (List.not_mem_nil _)
  | cons f rest ih =>
      intro ps e he hnd
      simp only [List.map_cons, List.nodup_cons] at hnd
      rcases List.mem_cons.mp he with rfl | he'
      · rw [List.foldl_cons, setp_fold_notmem theta rest _ _ hnd.1]
        simp
      · rw [List.foldl_cons]
        exact ih _ e he' hnd.2

/-- The `theta_from_params` fold succeeds and writes `theta`'s value into
every covered slot, provided every entry's stored value is the matching slice
of `theta`. -/
theorem tfp_fold (theta : List ℚ) :
    ∀ (desc : List ThetaDescEntry) (ps : Params) (acc : List ℚ),
      (∀ e ∈ desc, ps e.name = some (slice theta e.i0 e.N)) →
      (∀ e ∈ desc, e.N ≠ 0 → e.i0 + e.N ≤ theta.length) →
      acc.length = theta.length →
      ∃ r, desc.foldlM
            (fun acc e => (ps e.name).map (fun vals => setSlice acc e.i0 vals))
            acc = some r ∧ r.length = theta.length ∧
          ∀ j : Nat, r[j]? = if j ∈ covers desc then theta[j]? else acc[j]? := by
  intro desc
  induction desc with
  | nil =>
      intro ps acc _ _ hlen
      exact ⟨acc, rfl, hlen, fun j => by simp [covers]⟩
  | cons e rest ih =>
      intro ps acc hps hrange hlen
      have hpse := hps e (List.mem_cons_self _ _)
      by_cases hN : e.N = 0
      · have hsl : slice theta e.i0 e.N = [] := by
          simp [slice, hN]
        obtain ⟨r, hr, hrl, hrj⟩ := ih ps acc
          (fun f hf => hps f (List.mem_cons_of_mem _ hf))
          (fun f hf => hrange f (List.mem_cons_of_mem _ hf)) hlen
        refine ⟨r, ?_, hrl, ?_⟩
        · rw [List.foldlM_cons, hpse]
          simpa [hsl, setSlice_nil] using hr
        · intro j
          rw [hrj j]
          have hnot : ¬(e.i0 ≤ j ∧ j < e.i0 + e.N) := by omega
          by_cases hj : j ∈ covers rest
          · rw [if_pos hj, if_pos (mem_covers_cons.mpr (Or.inr hj))]
          · rw [if_neg hj, if_neg (fun hc => by
              rcases mem_covers_cons.mp hc with h | h
              · exact hnot h
              · exact hj h)]
      · have hle : e.i0 + e.N ≤ theta.length :=
          hrange e (List.mem_cons_self _ _) hN
        have hsl : (slice theta e.i0 e.N).length = e.N := slice_length _ _ _ hle
        set acc' := setSlice acc e.i0 (slice theta e.i0 e.N) with hacc'
        have hlen' : acc'.length = theta.length := by
          rw [hacc', length_setSlice _ _ _ (fun _ => by omega), hlen]
        obtain ⟨r, hr, hrl, hrj⟩ := ih ps acc'
          (fun f hf => hps f (List.mem_cons_of_mem _ hf))
          (fun f hf => hrange f (List.mem_cons_of_mem _ hf)) hlen'
        refine ⟨r, ?_, hrl, ?_⟩
        · rw [List.foldlM_cons, hpse]
          simpa using hr
        · intro j
          rw [hrj j]
          have hacc'j : acc'[j]? =
              if e.i0 ≤ j ∧ j < e.i0 + e.N then theta[j]? else acc[j]? := by
            rw [hacc', getElem?_setSlice _ _ _ _ (by omega), hsl]
            by_cases hj : e.i0 ≤ j ∧ j < e.i0 + e.N
            · rw [if_pos hj, if_pos hj, getElem?_slice,
                if_pos (by omega : j - e.i0 < e.N)]
              congr 1
              omega
            · rw [if_neg hj, if_neg hj]
          by_cases hj1 : j ∈ covers rest
          · rw [if_pos hj1, if_pos (mem_covers_cons.mpr (Or.inr hj1))]
          · rw [if_neg hj1, hacc'j]
            by_cases hj2 : e.i0 ≤ j ∧ j < e.i0 + e.N
            · rw [if_pos hj2, if_pos (mem_covers_cons.mpr (Or.inl hj2))]
            · rw [if_neg hj2, if_neg (fun hc => by
                rcases mem_covers_cons.mp hc with h | h
                · exact hj2 h
                · exact hj1 h)]

/-- C1.  Round-trip: for every descriptor whose index ranges partition
`[0, ndim)` and every flat vector `theta` of length `ndim`, calling
`set_parameters(theta)` and then `theta_from_params()` reproduces `theta`
exactly, provided no other mutation occurred in between. -/
theorem round_trip (desc : List ThetaDescEntry) (ps ps' : Params) (theta : List ℚ)
    (hpart : partitions desc (ndim desc))
    (hnames : (desc.map (·.name)).Nodup)
    (hset : set_parameters desc ps theta = some ps') :
    theta_from_params desc ps' = some theta := by
  have hlen : theta.length = ndim desc := by
    by_contra hne
    rw [set_parameters, if_neg hne] at hset
    exact Option.noConfusion hset
  have hps' : ps' = desc.foldl
      (fun ps e k => if k = e.name then some (slice theta e.i0 e.N) else ps k) ps := by
    rw [set_parameters, if_pos hlen] at hset
    exact (Option.some_injective _ hset).symm
  have hlook : ∀ e ∈ desc, ps' e.name = some (slice theta e.i0 e.N) := by
    intro e he
    rw [hps']
    exact setp_fold_mem theta desc ps e he hnames
  have hrange : ∀ e ∈ desc, e.N ≠ 0 → e.i0 + e.N ≤ theta.length := by
    intro e he hN
    rw [hlen]
    exact entry_range_le_of_partitions hpart e he hN
  obtain ⟨r, hr, hrl, hrj⟩ := tfp_fold theta desc ps'
    (List.replicate (ndim desc) 0) hlook hrange (by simp [hlen])
  rw [theta_from_params, hr]
  congr 1
  apply List.ext_getElem?
  intro j
  rw [hrj j]
  by_cases hj : j < ndim desc
  · rw [if_pos (hpart.mem_iff.mpr (List.mem_range.mpr hj))]
  · rw [if_neg (fun hc => hj (List.mem_range.mp (hpart.mem_iff.mp hc)))]
    rw [List.getElem?_eq_none_iff.mpr (by simp; omega),
      List.getElem?_eq_none_iff.mpr (by omega)]

instance (desc : List ThetaDescEntry) (n : Nat) : Decidable (partitions desc n) :=
  inferInstanceAs (Decidable (List.Perm _ _))

/-- Concrete two-parameter descriptor used by witnesses. -/
def descW : List ThetaDescEntry :=
  [{ name := "mass", i0 := 1, N := 2 }, { name := "zmet", i0 := 0, N := 1 }]

/-- The parameter dict produced by `set_parameters([5, 7, 11])` on `descW`. -/
def psW : Params := fun k =>
  if k = "zmet" then some [5] else if k = "mass" then some [7, 11] else none

theorem set_parameters_descW :
    set_parameters descW (fun _ => none) [5, 7, 11] = some psW := by
  rw [set_parameters, if_pos (by decide)]
  congr 1

/-- Witness for C1: the round trip at a concrete descriptor and vector. -/
theorem round_trip_witness : theta_from_params descW psW = some [5, 7, 11] :=
  round_trip descW (fun _ => none) psW [5, 7, 11] (by decide) (by decide)
    set_parameters_descW

/-! Labels (`ThetaParameters.theta_labels`). -/

/-- Ordering used to model Python's stable `sorted(zip(index, label))`:
tuples are compared lexicographically, but for the descriptors considered
here all indices are distinct, so the string components are never compared
and sorting stably by the index alone is an exact model. -/
def pairLE (a b : Nat × String) : Prop := a.1 ≤ b.1

instance : DecidableRel pairLE := fun a b => inferInstanceAs (Decidable (a.1 ≤ b.1))

instance : IsTotal (Nat × String) pairLE := ⟨fun a b => Nat.le_total a.1 b.1⟩

instance : IsTrans (Nat × String) pairLE := ⟨fun _ _ _ => Nat.le_trans⟩

/-- Model of the `label`/`index` list pair built by `theta_labels` (fused
into a single list of `(index, label)` pairs).  The source renames the
parameter `'amplitudes'` to `'A'` (an identity comparison on an interned
literal in Python, modelled as string equality), uses the bare name when
`N == 1`, and 1-based suffixes otherwise. -/
def labelPairs (desc : List ThetaDescEntry) : List (Nat × String) :=
  (desc.map (fun e =>
    let name := if e.name = "amplitudes" then "A" else e.name
    if e.N = 1 then [(e.i0, name)]
    else (List.range e.N).map (fun i => (e.i0 + i, name ++ toString (i + 1))))).flatten

/-- Model of `ThetaParameters.theta_labels`: the labels sorted by slot index
via `sorted(zip(index, label))`. -/
def theta_labels (desc : List ThetaDescEntry) : List String :=
  ((labelPairs desc).insertionSort pairLE).map (·.2)

/-- The label a given descriptor entry assigns to its `k`-th component. -/
def slotLabel (e : ThetaDescEntry) (k : Nat) : String :=
  let name := if e.name = "amplitudes" then "A" else e.name
  if e.N = 1 then name else name ++ toString (k + 1)

theorem labelPairs_map_fst (desc : List ThetaDescEntry) :
    (labelPairs desc).map (·.1) = covers desc := by
  induction desc with
  | nil => rfl
  | cons e rest ih =>
      simp only [labelPairs, covers, List.map_cons, List.flatten_cons,
        List.map_append] at *
      rw [ih]
      congr 1
      by_cases hN : e.N = 1
      · simp [hN, List.range_succ]
      · simp [hN, List.map_map, Function.comp]

theorem mem_labelPairs {desc : List ThetaDescEntry} {pr : Nat × String} :
    pr ∈ labelPairs desc ↔
      ∃ e ∈ desc, ∃ k < e.N, pr = (e.i0 + k, slotLabel e k) := by
  simp only [labelPairs, List.mem_flatten, List.mem_map]
  constructor
  · rintro ⟨l, ⟨e, he, rfl⟩, hpr⟩
    by_cases hN : e.N = 1
    · rw [if_pos hN] at hpr
      rcases List.mem_singleton.mp hpr with rfl
      exact ⟨e, he, 0, by omega, by simp [slotLabel, hN]⟩
    · rw [if_neg hN] at hpr
      rcases List.mem_map.mp hpr with ⟨k, hk, rfl⟩
      rw [List.mem_range] at hk
      exact ⟨e, he, k, hk, by simp [slotLabel, hN]⟩
  · rintro ⟨e, he, k, hk, rfl⟩
    refine ⟨_, ⟨e, he, rfl⟩, ?_⟩
    by_cases hN : e.N = 1
    · rw [if_pos hN]
      have hk0 : k = 0 := by omega
      simp [hk0, slotLabel, hN]
    · rw [if_neg hN]
      exact List.mem_map.mpr ⟨k, List.mem_range.mpr hk, by simp [slotLabel, hN]⟩

theorem covers_singleton (f : ThetaDescEntry) :
    covers [f] = (List.range f.N).map (f.i0 + ·) := by
  simp [covers]

theorem covers_cons_append (f : ThetaDescEntry) (rest : List ThetaDescEntry) :
    covers (f :: rest) = covers [f] ++ covers rest := by
  simp [covers]

theorem labelPairs_cons_append (f : ThetaDescEntry) (rest : List ThetaDescEntry) :
    labelPairs (f :: rest) = labelPairs [f] ++ labelPairs rest := by
  simp [labelPairs]

/-- Under a duplicate-free covering, the pair stored for slot `e.i0 + k` can
only originate from entry `e` at component `k`. -/
theorem labelPairs_unique :
    ∀ (desc : List ThetaDescEntry), (covers desc).Nodup →
      ∀ e ∈ desc, ∀ k, k < e.N → ∀ lab : String,
        (e.i0 + k, lab) ∈ labelPairs desc → lab = slotLabel e k := by
  intro desc
  induction desc with
  | nil => intro _ e he; exact absurd he (List.not_mem_nil _)
  | cons f rest ih =>
      intro hnd e he k hk lab hmem
      rw [covers_cons_append, List.nodup_append] at hnd
      rw [labelPairs_cons_append, List.mem_append] at hmem
      have hfcov : ∀ e' ∈ (f :: rest), ∀ k', k' < e'.N →
          (e'.i0 + k', lab) ∈ labelPairs [f] → e'.i0 + k' ∈ covers [f] := by
        intro e' _ k' _ hm
        have := List.mem_map_of_mem (·.1) hm
        rwa [labelPairs_map_fst] at this
      rcases List.mem_cons.mp he with rfl | he'
      · rcases hmem with hmem | hmem
        · rcases mem_labelPairs.mp hmem with ⟨e', he', k', hk', heq⟩
          have hee : e' = e := List.mem_singleton.mp he'
          rw [hee] at hk' heq
          have hfst : e.i0 + k = e.i0 + k' := congrArg Prod.fst heq
          have : k' = k := by omega
          subst this
          exact congrArg Prod.snd heq
        · exfalso
          have h1 : e.i0 + k ∈ covers rest := by
            have := List.mem_map_of_mem (·.1) hmem
            rwa [labelPairs_map_fst] at this
          have h2 : e.i0 + k ∈ covers [e] := by
            rw [covers_singleton]
            exact List.mem_map.mpr ⟨k, List.mem_range.mpr hk, rfl⟩
          exact hnd.2.2 h2 h1
      · rcases hmem with hmem | hmem
        · exfalso
          have h1 : e.i0 + k ∈ covers [f] :=
            hfcov e (List.mem_cons_of_mem _ he') k hk hmem
          have h2 : e.i0 + k ∈ covers rest :=
            mem_covers.mpr ⟨e, he', by omega, by omega⟩
          exact hnd.2.2 h1 h2
        · exact ih hnd.2.1 e he' k hk lab hmem

/-- C10 (amended).  Label generation: for every descriptor whose ranges
partition the flat vector, the label sequence has one entry per slot,
ordered by slot index `i0` (not by the descriptor's iteration order); the
parameter named `'amplitudes'` is renamed to `'A'`; a parameter with `N == 1`
is labelled with its (renamed) name, and one with `N > 1` with the (renamed)
name suffixed by `1..N`. -/
theorem theta_labels_by_slot (desc : List ThetaDescEntry)
    (hpart : partitions desc (ndim desc)) :
    (theta_labels desc).length = ndim desc ∧
      ∀ e ∈ desc, ∀ k, k < e.N →
        (theta_labels desc)[e.i0 + k]? = some (slotLabel e k) := by
  have hndcov : (covers desc).Nodup := hpart.nodup_iff.mpr (List.nodup_range _)
  have hperm : List.Perm ((labelPairs desc).insertionSort pairLE) (labelPairs desc) :=
    List.perm_insertionSort _ _
  have hsorted : List.Sorted pairLE ((labelPairs desc).insertionSort pairLE) :=
    List.sorted_insertionSort _ _
  have hfstperm : List.Perm
      (((labelPairs desc).insertionSort pairLE).map (·.1))
      (List.range (ndim desc)) := by
    refine (hperm.map (·.1)).trans ?_
    rw [labelPairs_map_fst]
    exact hpart
  have hfstsorted :
      List.Sorted (· ≤ ·) (((labelPairs desc).insertionSort pairLE).map (·.1)) :=
    List.Pairwise.map _ (fun _ _ h => h) hsorted
  have hfst : ((labelPairs desc).insertionSort pairLE).map (·.1) =
      List.range (ndim desc) :=
    List.eq_of_perm_of_sorted hfstperm hfstsorted (List.pairwise_le_range _)
  have hslen : ((labelPairs desc).insertionSort pairLE).length = ndim desc := by
    have := congrArg List.length hfst
    simpa using this
  constructor
  · simpa [theta_labels] using hslen
  · intro e he k hk
    have hj : e.i0 + k < ndim desc := by
      have hmem : e.i0 + k ∈ covers desc := mem_covers.mpr ⟨e, he, by omega, by omega⟩
      have := hpart.mem_iff.mp hmem
      rwa [List.mem_range] at this
    have hjs : e.i0 + k < ((labelPairs desc).insertionSort pairLE).length := by omega
    set pr := ((labelPairs desc).insertionSort pairLE)[e.i0 + k] with hpr
    have hprfst : pr.1 = e.i0 + k := by
      have h1 : (((labelPairs desc).insertionSort pairLE).map (·.1))[e.i0 + k]?
          = some pr.1 := by
        rw [List.getElem?_map, List.getElem?_eq_getElem hjs]
        simp [hpr]
      rw [hfst, List.getElem?_range hj] at h1
      exact (Option.some_injective _ h1).symm
    have hprmem : pr ∈ labelPairs desc :=
      hperm.mem_iff.mp (List.getElem_mem hjs)
    have hprsnd : pr.2 = slotLabel e k := by
      apply labelPairs_unique desc hndcov e he k hk
      have : pr = (e.i0 + k, pr.2) := by
        rw [← hprfst]
      rwa [this] at hprmem
    rw [theta_labels, List.getElem?_map,
      List.getElem?_eq_getElem hjs]
    simp [← hpr, hprsnd]

/-- Counterexample for C10 as stated: a single-component parameter named
'amplitudes' is labelled 'A' by `theta_labels`, not by the parameter's own
name. -/
theorem theta_labels_amplitudes_counterexample :
    theta_labels [{ name := "amplitudes", i0 := 0, N := 1 }] = ["A"] ∧
      theta_labels [{ name := "amplitudes", i0 := 0, N := 1 }] ≠ ["amplitudes"] := by
  constructor
  · rfl
  · intro h
    exact absurd (congrArg (fun l => l[0]?) h) (by decide)

/-- Witness for C10 at the concrete descriptor `descW`: slot 0 is `zmet`
(declared second) and slot 1 is `mass1`. -/
theorem theta_labels_by_slot_witness :
    (theta_labels descW).length = ndim descW ∧
      (theta_labels descW)[0]? = some "zmet" ∧
      (theta_labels descW)[1]? = some "mass1" := by
  have h := theta_labels_by_slot descW (by decide)
  refine ⟨h.1, ?_, ?_⟩
  · have := h.2 { name := "zmet", i0 := 0, N := 1 }
      (List.mem_cons_of_mem _ (List.mem_cons_self _ _)) 0 (by decide)
    simpa using this
  · have := h.2 { name := "mass", i0 := 1, N := 2 }
      (List.mem_cons_self _ _) 0 (by decide)
    simpa [slotLabel] using this

/-! Bounds accessor (`ThetaParameters.bounds`). -/

/-- One step of the `bounds` fold: when `np.size(mini) == 1` the code writes
the pair into the single slot `i0`; otherwise it writes `(mini[k], maxi[k])`
into slot `i0 + k` for each `k < np.size(mini)`.  `prior_args['mini']` and
`['maxi']` are modelled as lists, a numpy scalar being a one-element list
(`np.size` and indexing treat the two identically); Python's in-range list
assignment `bounds[i] = ...` is `List.set` (all writes are in range for the
descriptors considered in the theorems below). -/
def boundsStep (b : List (ℚ × ℚ)) (e : ThetaDescEntry) : List (ℚ × ℚ) :=
  if e.mini.length = 1 then
    b.set e.i0 (e.mini.getD 0 0, e.maxi.getD 0 0)
  else
    (List.range e.mini.length).foldl
      (fun b k => b.set (e.i0 + k) (e.mini.getD k 0, e.maxi.getD k 0)) b

/-- Model of `ThetaParameters.bounds`: starts from `ndim * [(0., 0.)]` and
folds `boundsStep` over the descriptor. -/
def bounds (desc : List ThetaDescEntry) : List (ℚ × ℚ) :=
  desc.foldl boundsStep (List.replicate (ndim desc) (0, 0))

theorem foldl_set_range (val : Nat → ℚ × ℚ) (i0 : Nat) :
    ∀ (sz : Nat) (b : List (ℚ × ℚ)), i0 + sz ≤ b.length →
      ((List.range sz).foldl (fun b k => b.set (i0 + k) (val k)) b).length
          = b.length ∧
      ∀ j, ((List.range sz).foldl (fun b k => b.set (i0 + k) (val k)) b)[j]? =
        if i0 ≤ j ∧ j < i0 + sz then some (val (j - i0)) else b[j]? := by
  intro sz
  induction sz with
  | zero =>
      intro b _
      refine ⟨rfl, fun j => ?_⟩
      rw [if_neg (by omega)]
      rfl
  | succ n ih =>
      intro b hb
      obtain ⟨ihlen, ihget⟩ := ih b (by omega)
      rw [List.range_succ, List.foldl_append]
      refine ⟨by simpa using ihlen, fun j => ?_⟩
      simp only [List.foldl_cons, List.foldl_nil]
      rw [List.getElem?_set, ihlen, ihget j]
      by_cases h1 : i0 + n = j
      · rw [if_pos h1, if_pos (by omega), if_pos (by omega)]
        have hn : j - i0 = n := by omega
        rw [hn]
      · rw [if_neg h1]
        by_cases h2 : i0 ≤ j ∧ j < i0 + n
        · rw [if_pos h2, if_pos (by omega)]
        · rw [if_neg h2, if_neg (by omega)]

theorem boundsStep_length (b : List (ℚ × ℚ)) (e : ThetaDescEntry)
    (hsz : e.mini.length = 1 ∨ e.mini.length = e.N)
    (hle : e.i0 + e.N ≤ b.length) (hN : e.N ≠ 0) :
    (boundsStep b e).length = b.length := by
  rw [boundsStep]
  by_cases h1 : e.mini.length = 1
  · rw [if_pos h1, List.length_set]
  · rw [if_neg h1]
    exact (foldl_set_range _ _ _ b (by omega : e.i0 + e.mini.length ≤ b.length)).1

theorem getElem?_boundsStep (b : List (ℚ × ℚ)) (e : ThetaDescEntry)
    (hsz : e.mini.length = 1 ∨ e.mini.length = e.N)
    (hle : e.i0 + e.N ≤ b.length) (hN : e.N ≠ 0) :
    ∀ j, (boundsStep b e)[j]? =
      if e.mini.length = 1 then
        (if j = e.i0 then some (e.mini.getD 0 0, e.maxi.getD 0 0) else b[j]?)
      else
        (if e.i0 ≤ j ∧ j < e.i0 + e.mini.length
          then some (e.mini.getD (j - e.i0) 0, e.maxi.getD (j - e.i0) 0)
          else b[j]?) := by
  intro j
  rw [boundsStep]
  by_cases h1 : e.mini.length = 1
  · rw [if_pos h1, if_pos h1, List.getElem?_set]
    by_cases h2 : e.i0 = j
    · rw [if_pos h2, if_pos (by omega), if_pos h2.symm]
    · rw [if_neg h2, if_neg (fun hc => h2 hc.symm)]
  · rw [if_neg h1, if_neg h1]
    exact (foldl_set_range
      (fun k => (e.mini.getD k 0, e.maxi.getD k 0)) e.i0 e.mini.length b
      (by omega : e.i0 + e.mini.length ≤ b.length)).2 j

theorem mem_covers_singleton {f : ThetaDescEntry} {j : Nat} :
    j ∈ covers [f] ↔ f.i0 ≤ j ∧ j < f.i0 + f.N := by
  rw [covers_singleton]
  constructor
  · intro hj
    rcases List.mem_map.mp hj with ⟨k', hk', rfl⟩
    rw [List.mem_range] at hk'
    omega
  · intro hj
    exact List.mem_map.mpr ⟨j - f.i0, List.mem_range.mpr (by omega), by omega⟩

/-- A slot outside an entry's index range is not written by that entry's
`bounds` step. -/
theorem getElem?_boundsStep_out (b : List (ℚ × ℚ)) (f : ThetaDescEntry)
    (hsz : f.mini.length = 1 ∨ f.mini.length = f.N)
    (hle : f.i0 + f.N ≤ b.length) (hN : f.N ≠ 0)
    (j : Nat) (hj : j ∉ covers [f]) : (boundsStep b f)[j]? = b[j]? := by
  have hrange : ¬(f.i0 ≤ j ∧ j < f.i0 + f.N) := fun hc =>
    hj (mem_covers_singleton.mpr hc)
  rw [getElem?_boundsStep b f hsz hle hN j]
  by_cases h1 : f.mini.length = 1
  · rw [if_pos h1, if_neg (by omega)]
  · have hlen : f.mini.length = f.N := hsz.resolve_left h1
    rw [if_neg h1, if_neg (by omega)]

/-- The accumulated effect of the `bounds` fold, for well-formed descriptors:
each slot of an entry's range receives that entry's write, slots an entry
never writes (the tail of a scalar-`mini` entry's range) and uncovered slots
keep the initial accumulator's value. -/
theorem bounds_fold (desc : List ThetaDescEntry) :
    ∀ b : List (ℚ × ℚ),
      (∀ e ∈ desc, e.N ≠ 0) →
      (∀ e ∈ desc, e.mini.length = 1 ∨ e.mini.length = e.N) →
      (∀ e ∈ desc, e.i0 + e.N ≤ b.length) →
      (covers desc).Nodup →
      (desc.foldl boundsStep b).length = b.length ∧
      (∀ j, j ∉ covers desc → (desc.foldl boundsStep b)[j]? = b[j]?) ∧
      ∀ e ∈ desc, ∀ k, k < e.N →
        (desc.foldl boundsStep b)[e.i0 + k]? =
          if e.mini.length = 1 then
            (if k = 0 then some (e.mini.getD 0 0, e.maxi.getD 0 0)
             else b[e.i0 + k]?)
          else some (e.mini.getD k 0, e.maxi.getD k 0) := by
  induction desc with
  | nil =>
      intro b _ _ _ _
      exact ⟨rfl, fun j _ => rfl, fun e he => absurd he (List.not_mem_nil _)⟩
  | cons f rest ih =>
      intro b hN hsz hle hnd
      have hNf := hN f (List.mem_cons_self _ _)
      have hszf := hsz f (List.mem_cons_self _ _)
      have hlef := hle f (List.mem_cons_self _ _)
      rw [covers_cons_append, List.nodup_append] at hnd
      have hblen : (boundsStep b f).length = b.length :=
        boundsStep_length b f hszf hlef hNf
      obtain ⟨ihlen, ihout, ihget⟩ := ih (boundsStep b f)
        (fun e he => hN e (List.mem_cons_of_mem _ he))
        (fun e he => hsz e (List.mem_cons_of_mem _ he))
        (fun e he => hblen ▸ hle e (List.mem_cons_of_mem _ he))
        hnd.2.1
      rw [List.foldl_cons]
      refine ⟨by rw [ihlen, hblen], ?_, ?_⟩
      · intro j hj
        rw [covers_cons_append, List.mem_append] at hj
        push_neg at hj
        rw [ihout j hj.2]
        exact getElem?_boundsStep_out b f hszf hlef hNf j hj.1
      · intro e he k hk
        rcases List.mem_cons.mp he with rfl | he'
        · have hjf : e.i0 + k ∈ covers [e] :=
            mem_covers_singleton.mpr ⟨by omega, by omega⟩
          have hjrest : e.i0 + k ∉ covers rest := fun hc => hnd.2.2 hjf hc
          rw [ihout _ hjrest, getElem?_boundsStep b e hszf hlef hNf]
          by_cases h1 : e.mini.length = 1
          · rw [if_pos h1, if_pos h1]
            by_cases hk0 : k = 0
            · rw [if_pos (by omega), if_pos hk0]
            · rw [if_neg (by omega), if_neg hk0]
          · have hlen : e.mini.length = e.N := hszf.resolve_left h1
            rw [if_neg h1, if_neg h1, if_pos (by omega)]
            have hik : e.i0 + k - e.i0 = k := by omega
            rw [hik]
        · have hjrest : e.i0 + k ∈ covers rest :=
            mem_covers.mpr ⟨e, he', by omega, by omega⟩
          have hjf : e.i0 + k ∉ covers [f] := fun hc => hnd.2.2 hc hjrest
          rw [ihget e he' k hk]
          by_cases h1 : e.mini.length = 1
          · rw [if_pos h1, if_pos h1]
            by_cases hk0 : k = 0
            · rw [if_pos hk0, if_pos hk0]
            · rw [if_neg hk0, if_neg hk0,
                getElem?_boundsStep_out b f hszf hlef hNf _ hjf]
          · rw [if_neg h1, if_neg h1]

/-- C8 (amended).  Bounds accessor: for every well-formed descriptor,
`bounds()` returns exactly `ndim` pairs ordered by slot index; an entry with
a length-`N` array `mini`/`maxi` puts `(mini[k], maxi[k])` into slot
`i0 + k`; but an entry whose `mini` is a scalar (`np.size == 1`) writes
`(mini, maxi)` into slot `i0` only — the remaining `N - 1` slots of that
entry keep the initial placeholder `(0., 0.)` (no broadcast). -/
theorem bounds_by_slot (desc : List ThetaDescEntry)
    (hpart : partitions desc (ndim desc))
    (hN : ∀ e ∈ desc, e.N ≠ 0)
    (hsz : ∀ e ∈ desc, e.mini.length = 1 ∨ e.mini.length = e.N) :
    (bounds desc).length = ndim desc ∧
    ∀ e ∈ desc, ∀ k, k < e.N →
      (bounds desc)[e.i0 + k]? =
        if e.mini.length = 1 then
          (if k = 0 then some (e.mini.getD 0 0, e.maxi.getD 0 0)
           else some (0, 0))
        else some (e.mini.getD k 0, e.maxi.getD k 0) := by
  have hndcov : (covers desc).Nodup := hpart.nodup_iff.mpr (List.nodup_range _)
  have hle : ∀ e ∈ desc, e.i0 + e.N ≤
      (List.replicate (ndim desc) ((0 : ℚ), (0 : ℚ))).length := by
    intro e he
    rw [List.length_replicate]
    exact entry_range_le_of_partitions hpart e he (hN e he)
  obtain ⟨hlen, _, hget⟩ := bounds_fold desc _ hN hsz hle hndcov
  refine ⟨by simpa [bounds] using hlen, ?_⟩
  intro e he k hk
  rw [bounds, hget e he k hk]
  by_cases h1 : e.mini.length = 1
  · rw [if_pos h1, if_pos h1]
    by_cases hk0 : k = 0
    · rw [if_pos hk0, if_pos hk0]
    · rw [if_neg hk0, if_neg hk0]
      have hj : e.i0 + k < ndim desc := by
        have hmem : e.i0 + k ∈ covers desc :=
          mem_covers.mpr ⟨e, he, by omega, by omega⟩
        have := hpart.mem_iff.mp hmem
        rwa [List.mem_range] at this
      rw [List.getElem?_eq_getElem (by simpa using hj)]
      simp
  · rw [if_neg h1, if_neg h1]

/-- Counterexample for C8 as stated: a scalar `mini`/`maxi` on a
two-component parameter does not broadcast; only slot `i0` receives the
pair, and the second slot keeps the `(0., 0.)` placeholder. -/
theorem bounds_no_broadcast_counterexample :
    bounds [{ name := "a", i0 := 0, N := 2, mini := [1], maxi := [2] }]
        = [(1, 2), (0, 0)] ∧
      bounds [{ name := "a", i0 := 0, N := 2, mini := [1], maxi := [2] }]
        ≠ [(1, 2), (1, 2)] := by
  have h1 : bounds [{ name := "a", i0 := 0, N := 2, mini := [1], maxi := [2] }]
      = [(1, 2), (0, 0)] := rfl
  refine ⟨h1, fun h => ?_⟩
  rw [h1] at h
  exact absurd h (by decide)

/-- Witness for C8 at a concrete descriptor exercising both the scalar and
the array `mini` layouts. -/
theorem bounds_by_slot_witness :
    (bounds [{ name := "a", i0 := 0, N := 2, mini := [1], maxi := [2] },
             { name := "b", i0 := 2, N := 2, mini := [3, 4], maxi := [5, 6] }]).length = 4 ∧
    (bounds [{ name := "a", i0 := 0, N := 2, mini := [1], maxi := [2] },
             { name := "b", i0 := 2, N := 2, mini := [3, 4], maxi := [5, 6] }])[1]?
        = some (0, 0) ∧
    (bounds [{ name := "a", i0 := 0, N := 2, mini := [1], maxi := [2] },
             { name := "b", i0 := 2, N := 2, mini := [3, 4], maxi := [5, 6] }])[3]?
        = some (4, 6) := by
  have h := bounds_by_slot
    [{ name := "a", i0 := 0, N := 2, mini := [1], maxi := [2] },
     { name := "b", i0 := 2, N := 2, mini := [3, 4], maxi := [5, 6] }]
    (by decide) (by decide) (by decide)
  refine ⟨h.1, ?_, ?_⟩
  · have := h.2 { name := "a", i0 := 0, N := 2, mini := [1], maxi := [2] }
      (List.mem_cons_self _ _) 1 (by decide)
    simpa using this
  · have := h.2 { name := "b", i0 := 2, N := 2, mini := [3, 4], maxi := [5, 6] }
      (List.mem_cons_of_mem _ (List.mem_cons_self _ _)) 1 (by decide)
    simpa using this

/-! Prior evaluation (`ThetaParameters.prior_product`). -/

/-- Model of `ThetaParameters.prior_product`: folds over the descriptor,
adding `np.sum(v['prior_function'](theta[i0:i0+N], **v['prior_args']))`
for every entry.  The dict access `v['prior_function']` raises a `KeyError`
when the entry defines no prior function — modelled by a `none` result.  The
stored function has its keyword arguments already applied (they are opaque
data passed through unchanged). -/
def prior_product (desc : List ThetaDescEntry) (theta : List ℚ) : Option ℚ :=
  desc.foldlM
    (fun acc e =>
      (e.prior_function).map (fun f => acc + (f (slice theta e.i0 e.N)).sum))
    0

/-- The total log-prior as the spec describes it: entries without a prior
function contribute 0.  Stated from the spec's words, for comparison with
the code's `prior_product`. -/
def specPriorSum (desc : List ThetaDescEntry) (theta : List ℚ) : ℚ :=
  (desc.map (fun e =>
    match e.prior_function with
    | some f => (f (slice theta e.i0 e.N)).sum
    | none => 0)).sum

theorem prior_product_fold (theta : List ℚ) :
    ∀ (desc : List ThetaDescEntry) (acc : ℚ),
      (∀ e ∈ desc, e.prior_function.isSome) →
      desc.foldlM
        (fun acc e =>
          (e.prior_function).map (fun f => acc + (f (slice theta e.i0 e.N)).sum))
        acc = some (acc + specPriorSum desc theta) := by
  intro desc
  induction desc with
  | nil =>
      intro acc _
      simp [specPriorSum]
  | cons e rest ih =>
      intro acc hall
      rcases Option.isSome_iff_exists.mp (hall e (List.mem_cons_self _ _)) with ⟨f, hf⟩
      rw [List.foldlM_cons, hf]
      show List.foldlM
        (fun acc e =>
          Option.map (fun f => acc + (f (slice theta e.i0 e.N)).sum) e.prior_function)
        (acc + (f (slice theta e.i0 e.N)).sum) rest
          = some (acc + specPriorSum (e :: rest) theta)
      rw [ih _ (fun e' he' => hall e' (List.mem_cons_of_mem _ he'))]
      congr 1
      simp [specPriorSum, hf]
      ring

/-- C4 (amended).  Flat-prior contribution: when every descriptor entry
defines a prior function, `prior_product(theta)` succeeds and returns the
sum over entries of the summed log-density of that entry's prior applied to
`theta[i0:i0+N]`.  An entry without a prior function does not contribute 0:
the dict lookup `v['prior_function']` fails (KeyError), so the call does not
succeed (see the counterexample). -/
theorem prior_product_total (desc : List ThetaDescEntry) (theta : List ℚ)
    (hall : ∀ e ∈ desc, e.prior_function.isSome) :
    prior_product desc theta = some (specPriorSum desc theta) := by
  have h := prior_product_fold theta desc 0 hall
  rwa [zero_add] at h

/-- Counterexample for C4 as stated: a descriptor entry without a prior
function makes `prior_product` fail (the `v['prior_function']` lookup
raises), instead of contributing 0 with the call still succeeding. -/
theorem prior_product_missing_counterexample :
    prior_product
      [{ name := "a", i0 := 0, N := 1, prior_function := some (fun xs => xs) },
       { name := "b", i0 := 1, N := 1 }] [1, 2] = none := rfl

/-- Concrete descriptor where every entry defines a prior function. -/
def descP : List ThetaDescEntry :=
  [{ name := "a", i0 := 0, N := 1, prior_function := some (fun xs => xs) },
   { name := "b", i0 := 1, N := 2,
     prior_function := some (fun xs => xs.map (fun x => x * x)) }]

/-- Witness for C4: `prior_product` on `descP` sums the identity prior on
slot 0 and the squares prior on slots 1-2. -/
theorem prior_product_total_witness :
    prior_product descP [2, 3, 4] = some 27 := by
  have h := prior_product_total descP [2, 3, 4] (by decide)
  rw [h]
  norm_num [specPriorSum, descP, slice]

/-! Negative-flux clipping in the model facades (`SedModel.sed` in
`prospect/models/sedmodel.py` and `SedModel.mean_model` in
`bsfh/sedmodel.py`). -/

/-- The smallest strictly positive entry of a spectrum,
`spec[spec > 0].min()`; `none` models the `ValueError` numpy raises when
reducing an empty selection. -/
def minPos (spec : List ℚ) : Option ℚ := (spec.filter (fun v => 0 < v)).min?

/-- Model of the negative-flux clipping in `SedModel.sed` (prospect): inside
`try:`, `tiny = 1.0/len(spec) * spec[spec > 0].min()` and entries below
`tiny` are replaced by `tiny`; the bare `except: pass` swallows the failure
when no positive entry exists, leaving the spectrum unchanged. -/
def sedClip (spec : List ℚ) : List ℚ :=
  match minPos spec with
  | none => spec
  | some m =>
      spec.map (fun v =>
        if v < 1 / (spec.length : ℚ) * m then 1 / (spec.length : ℚ) * m else v)

/-- Model of the same clipping in `SedModel.mean_model` (bsfh): no
`try`/`except`, so the empty-reduction error propagates to the caller
(`none`). -/
def mean_model_clip (spec : List ℚ) : Option (List ℚ) :=
  (minPos spec).map (fun m =>
    spec.map (fun v =>
      if v < 1 / (spec.length : ℚ) * m then 1 / (spec.length : ℚ) * m else v))

/-- C7 (amended).  Non-positive flux handling: when the raw spectrum has at
least one positive entry, every entry below the floor
`tiny = (1/len(spec)) * min{positive entries}` is silently replaced by that
floor and no error is raised.  When no positive entry exists, no
`AllNonPositiveFlux` error is raised: the prospect facade (`sed`) swallows
the failure and returns the spectrum unchanged, while the bsfh facade
(`mean_model`) propagates an unhandled empty-reduction error. -/
theorem facade_clip (spec : List ℚ) :
    ((∃ v ∈ spec, 0 < v) → ∃ m, minPos spec = some m ∧ 0 < m ∧
        sedClip spec = spec.map (fun v =>
          if v < 1 / (spec.length : ℚ) * m then 1 / (spec.length : ℚ) * m else v) ∧
        mean_model_clip spec = some (sedClip spec)) ∧
    ((∀ v ∈ spec, v ≤ 0) →
        sedClip spec = spec ∧ mean_model_clip spec = none) := by
  constructor
  · rintro ⟨v, hv, hv0⟩
    have hne : spec.filter (fun v => decide (0 < v)) ≠ [] := by
      intro hc
      have : v ∈ spec.filter (fun v => decide (0 < v)) :=
        List.mem_filter.mpr ⟨hv, by simpa using hv0⟩
      rw [hc] at this
      exact List.not_mem_nil _ this
    have hsome : ∃ m, minPos spec = some m := by
      rcases Option.eq_none_or_eq_some (minPos spec) with h | h
      · exact absurd (List.min?_eq_none_iff.mp h) hne
      · exact h
    rcases hsome with ⟨m, hm⟩
    have hmem : m ∈ spec.filter (fun v => decide (0 < v)) :=
      List.min?_mem (fun a b => min_choice a b) hm
    have hmpos : 0 < m := by simpa using (List.mem_filter.mp hmem).2
    refine ⟨m, hm, hmpos, ?_, ?_⟩
    · rw [sedClip, hm]
    · rw [mean_model_clip, hm, sedClip, hm]
      rfl
  · intro hall
    have hnil : spec.filter (fun v => decide (0 < v)) = [] := by
      rw [List.filter_eq_nil_iff]
      intro v hv
      simpa using not_lt.mpr (hall v hv)
    have hm : minPos spec = none := by
      rw [minPos, hnil, List.min?_nil]
    exact ⟨by rw [sedClip, hm], by rw [mean_model_clip, hm]; rfl⟩

/-- Counterexample for C7 as stated: on an all-non-positive spectrum the
prospect facade raises nothing — the clipping is skipped and the spectrum
comes back unchanged — and the bsfh facade fails with a plain empty-reduction
error; no `AllNonPositiveFlux` error exists in the code. -/
theorem facade_clip_counterexample :
    sedClip [-1, -2] = [-1, -2] ∧ mean_model_clip [-1, -2] = none :=
  ⟨rfl, rfl⟩

/-- Witness for C7 at a concrete spectrum with a positive entry:
`tiny = (1/3) * 1` and the entries `-4` and `0` are floored to `1/3`. -/
theorem facade_clip_witness :
    sedClip [-4, 1, 0] = [1/3, 1, 1/3] ∧ mean_model_clip [-4, 1, 0] ≠ none := by
  have h := (facade_clip [-4, 1, 0]).1 ⟨1, by decide, by decide⟩
  rcases h with ⟨m, hm, _, hclip, hmean⟩
  have hm1 : m = 1 := by
    have : minPos [-4, 1, 0] = some 1 := by decide
    rw [this] at hm
    exact (Option.some_injective _ hm.symm)
  subst hm1
  constructor
  · rw [hclip]
    norm_num
  · rw [hmean]
    exact Option.noConfusion

/-! Boundary reflection (`ThetaParameters.check_constrained`). -/

/-- The triple of mutable arrays and the loop flag inside
`check_constrained`: the working `theta`, the `sign` array, and `oob`. -/
structure CCState where
  theta : List ℚ
  sign : List ℚ
  oob : Bool
  deriving DecidableEq

/-- One descriptor entry's action inside a `check_constrained` pass.  The
`upper` block computes the mask `theta[start:end] > upper` on the current
slice, or-accumulates `oob`, reflects the violating components to
`2*upper - value` and multiplies their signs by `-1`; the `lower` block then
does the same on the *updated* slice.  The `verbose` printing of the source
is I/O and not modelled. -/
def ccEntryStep (e : ThetaDescEntry) (st : CCState) : CCState :=
  let vals := slice st.theta e.i0 e.N
  let svals := slice st.sign e.i0 e.N
  let up :=
    match e.upper with
    | none => (vals, svals, st.oob)
    | some u =>
        (vals.map (fun v => if u < v then 2 * u - v else v),
         List.zipWith (fun s v => if u < v then -s else s) svals vals,
         st.oob || vals.any (fun v => decide (u < v)))
  let lo :=
    match e.lower with
    | none => up
    | some l =>
        (up.1.map (fun v => if v < l then 2 * l - v else v),
         List.zipWith (fun s v => if v < l then -s else s) up.2.1 up.1,
         up.2.2 || up.1.any (fun v => decide (v < l)))
  { theta := setSlice st.theta e.i0 lo.1,
    sign := setSlice st.sign e.i0 lo.2.1,
    oob := lo.2.2 }

/-- One full pass of the `while oob:` loop: `oob` is reset to `False` and
every descriptor entry is processed in iteration order. -/
def ccPass (desc : List ThetaDescEntry) (st : CCState) : CCState :=
  desc.foldl (fun st e => ccEntryStep e st) { st with oob := false }

/-- The `while oob:` loop with explicit fuel; `none` models not having
terminated within `fuel` passes (the source has no iteration cap). -/
def ccLoop (desc : List ThetaDescEntry) : Nat → CCState → Option CCState
  | 0, _ => none
  | fuel + 1, st =>
      let st' := ccPass desc st
      if st'.oob then ccLoop desc fuel st' else some st'

/-- Model of `ThetaParameters.check_constrained`: `sign = np.ones_like(theta)`,
`oob = True`, then the pass loop.  The source mutates the caller's `theta`
array in place through slice views; the returned state's `theta` is that
same array. -/
def check_constrained (desc : List ThetaDescEntry) (theta : List ℚ)
    (fuel : Nat) : Option CCState :=
  ccLoop desc fuel
    { theta := theta, sign := List.replicate theta.length 1, oob := true }

/-- The caller's input array after `check_constrained` returns.  The source
updates `theta` through `theta[start:end][above] = ...`, a fancy assignment
into a slice view that writes through to the argument array, so after the
call the caller's array is the returned (corrected) `theta`, not the
original input. -/
def callerThetaAfter (desc : List ThetaDescEntry) (theta : List ℚ)
    (fuel : Nat) : Option (List ℚ) :=
  (check_constrained desc theta fuel).map (·.theta)

/-- Concrete single-parameter descriptor with the upper wall `1.0`. -/
def descR : List ThetaDescEntry :=
  [{ name := "p", i0 := 0, N := 1, upper := some 1 }]

/-- Evaluation of the reflected call shared by several results below:
`2*1.0 - 1.3 = 0.7`, the sign flips, and the loop exits on the second pass
with `oob = False`. -/
theorem check_constrained_descR_eval :
    check_constrained descR [13/10] 3
      = some { theta := [7/10], sign := [-1], oob := false } := by
  norm_num [check_constrained, ccLoop, ccPass, ccEntryStep, slice, setSlice, descR]

theorem ccLoop_oob_false (desc : List ThetaDescEntry) :
    ∀ (fuel : Nat) (st st' : CCState),
      ccLoop desc fuel st = some st' → st'.oob = false := by
  intro fuel
  induction fuel with
  | zero => intro st st' h; exact Option.noConfusion h
  | succ n ih =>
      intro st st' h
      rw [ccLoop] at h
      by_cases hoob : (ccPass desc st).oob
      · rw [if_pos hoob] at h
        exact ih _ _ h
      · rw [if_neg hoob] at h
        have := Option.some_injective _ h
        rw [← this]
        simpa using hoob

/-- C2 (amended).  Reflection correctness: for one single-component
parameter with upper bound `1.0` and input value `1.3`, `check_constrained`
returns the reflected value `0.7 = 2*1.0 - 1.3` and the sign entry flipped
to `-1`; but the third returned value is `False`: it is the loop variable
`oob`, which is always `False` whenever the call returns (the final pass
found no violation), so it does not indicate whether a reflection ever
occurred. -/
theorem check_constrained_result :
    (∀ (desc : List ThetaDescEntry) (theta : List ℚ) (fuel : Nat) (st : CCState),
        check_constrained desc theta fuel = some st → st.oob = false) ∧
      check_constrained descR [13/10] 3
        = some { theta := [7/10], sign := [-1], oob := false } :=
  ⟨fun desc _ fuel st h => ccLoop_oob_false desc fuel _ st h,
   check_constrained_descR_eval⟩

/-- Witness for C2: the general always-`False` clause applied at the
concrete reflected call. -/
theorem check_constrained_result_witness :
    ({ theta := [7/10], sign := [-1], oob := false } : CCState).oob = false :=
  check_constrained_result.1 descR [13/10] 3 _ check_constrained_result.2

/-- Counterexample for C2 as stated: at the claim's own input the third
returned value is `False`, not `True`. -/
theorem check_constrained_flag_counterexample :
    check_constrained descR [13/10] 3
        = some { theta := [7/10], sign := [-1], oob := false } ∧
      ¬ ({ theta := [7/10], sign := [-1], oob := false } : CCState).oob = true :=
  ⟨check_constrained_descR_eval, fun h => Bool.noConfusion h⟩

theorem mem_slice {x : ℚ} {t : List ℚ} {i0 N : Nat} (h : x ∈ slice t i0 N) :
    x ∈ t :=
  List.mem_of_mem_drop (List.mem_of_mem_take h)

theorem mem_setSlice {x : ℚ} {t xs : List ℚ} {i0 : Nat}
    (h : x ∈ setSlice t i0 xs) : x ∈ t ∨ x ∈ xs := by
  rcases List.mem_append.mp h with h1 | h1
  · rcases List.mem_append.mp h1 with h2 | h2
    · exact Or.inl (List.mem_of_mem_take h2)
    · exact Or.inr h2
  · exact Or.inl (List.mem_of_mem_drop h1)

theorem zipWith_flip_signs (p : ℚ → Bool) :
    ∀ (s v : List ℚ), (∀ x ∈ s, x = 1 ∨ x = -1) →
      ∀ x ∈ List.zipWith (fun s v => if p v then -s else s) s v, x = 1 ∨ x = -1 := by
  intro s
  induction s with
  | nil => intro v _ x hx; simp at hx
  | cons a s ih =>
      intro v hs x hx
      cases v with
      | nil => simp at hx
      | cons b v =>
          rw [List.zipWith_cons_cons] at hx
          rcases List.mem_cons.mp hx with rfl | hx'
          · rcases hs a (List.mem_cons_self _ _) with h1 | h1 <;>
              by_cases hb : p b <;> simp [hb, h1]
          · exact ih v (fun y hy => hs y (List.mem_cons_of_mem _ hy)) x hx'

theorem ccEntryStep_signs (e : ThetaDescEntry) (st : CCState)
    (hs : ∀ x ∈ st.sign, x = 1 ∨ x = -1) :
    ∀ x ∈ (ccEntryStep e st).sign, x = 1 ∨ x = -1 := by
  intro x hx
  rw [ccEntryStep] at hx
  have hsv : ∀ y ∈ slice st.sign e.i0 e.N, y = 1 ∨ y = -1 :=
    fun y hy => hs y (mem_slice hy)
  rcases hu : e.upper with _ | u <;> rcases hl : e.lower with _ | l <;>
    rw [hu, hl] at hx <;> simp only at hx
  · rcases mem_setSlice hx with h1 | h1
    · exact hs x h1
    · exact hsv x h1
  · rcases mem_setSlice hx with h1 | h1
    · exact hs x h1
    · exact zipWith_flip_signs _ _ _ hsv x h1
  · rcases mem_setSlice hx with h1 | h1
    · exact hs x h1
    · exact zipWith_flip_signs _ _ _ hsv x h1
  · rcases mem_setSlice hx with h1 | h1
    · exact hs x h1
    · exact zipWith_flip_signs _ _ _ (zipWith_flip_signs _ _ _ hsv) x h1

theorem ccFold_signs (desc : List ThetaDescEntry) :
    ∀ (st : CCState), (∀ x ∈ st.sign, x = 1 ∨ x = -1) →
      ∀ x ∈ (desc.foldl (fun st e => ccEntryStep e st) st).sign, x = 1 ∨ x = -1 := by
  induction desc with
  | nil => intro st hs; exact hs
  | cons e rest ih =>
      intro st hs
      rw [List.foldl_cons]
      exact ih _ (ccEntryStep_signs e st hs)

theorem ccPass_signs (desc : List ThetaDescEntry) (st : CCState)
    (hs : ∀ x ∈ st.sign, x = 1 ∨ x = -1) :
    ∀ x ∈ (ccPass desc st).sign, x = 1 ∨ x = -1 :=
  ccFold_signs desc { st with oob := false } hs

theorem ccLoop_signs (desc : List ThetaDescEntry) :
    ∀ (fuel : Nat) (st st' : CCState),
      (∀ x ∈ st.sign, x = 1 ∨ x = -1) →
      ccLoop desc fuel st = some st' →
      ∀ x ∈ st'.sign, x = 1 ∨ x = -1 := by
  intro fuel
  induction fuel with
  | zero => intro st st' _ h; exact Option.noConfusion h
  | succ n ih =>
      intro st st' hs h
      rw [ccLoop] at h
      by_cases hoob : (ccPass desc st).oob
      · rw [if_pos hoob] at h
        exact ih _ _ (ccPass_signs desc st hs) h
      · rw [if_neg hoob] at h
        have := Option.some_injective _ h
        rw [← this]
        exact ccPass_signs desc st hs

/-- C9 (amended).  In-place reflection: `check_constrained` does not work on
a copy — the slice-view assignments write through to the caller's `theta`
array, which after the call equals the returned corrected array (not the
original input).  The `sign` array is initialized to all `+1` before any
reflection and only ever multiplied by `-1`, so every returned sign entry is
`+1` or `-1`. -/
theorem check_constrained_in_place (desc : List ThetaDescEntry) (theta : List ℚ)
    (fuel : Nat) (st : CCState)
    (h : check_constrained desc theta fuel = some st) :
    callerThetaAfter desc theta fuel = some st.theta ∧
      ∀ x ∈ st.sign, x = 1 ∨ x = -1 := by
  constructor
  · rw [callerThetaAfter, h]
    rfl
  · refine ccLoop_signs desc fuel _ st ?_ h
    intro x hx
    exact Or.inl (List.eq_of_mem_replicate hx)

/-- Witness for C9 at the concrete reflected call: the caller's array ends
up as the corrected `[0.7]` and the returned sign entry is `-1`. -/
theorem check_constrained_in_place_witness :
    callerThetaAfter descR [13/10] 3 = some [7/10] ∧
      ∀ x ∈ [(-1 : ℚ)], x = 1 ∨ x = -1 :=
  check_constrained_in_place descR [13/10] 3
    { theta := [7/10], sign := [-1], oob := false } check_constrained_descR_eval

/-- Counterexample for C9 as stated: the caller's array is mutated — after
the call it holds the corrected `[0.7]`, not the original `[1.3]`. -/
theorem check_constrained_copy_counterexample :
    callerThetaAfter descR [13/10] 3 = some [7/10] ∧
      ¬ callerThetaAfter descR [13/10] 3 = some [13/10] := by
  have h : callerThetaAfter descR [13/10] 3 = some [7/10] := by
    rw [callerThetaAfter, check_constrained_descR_eval]
    rfl
  refine ⟨h, fun hc => ?_⟩
  rw [h] at hc
  have h2 : (7 : ℚ)/10 = 13/10 := by
    have := Option.some_injective _ hc
    simpa using this
  norm_num at h2

/-! Termination of the reflection loop.  One pass acts independently on each
component (the descriptor's ranges are disjoint); per component it reflects
off the upper wall and then, on the updated value, off the lower wall.  A
natural-number potential — roughly the number of wall-widths the value lies
outside the feasible interval — strictly decreases on every violating
component and is untouched elsewhere. -/

/-- Effect of the `upper` block of a pass on one component's value. -/
def slotUpper (up : Option ℚ) (v : ℚ) : ℚ :=
  match up with
  | none => v
  | some u => if u < v then 2 * u - v else v

/-- Effect of one full pass on one component's value: upper reflection, then
lower reflection on the updated value. -/
def slotStep (up lo : Option ℚ) (v : ℚ) : ℚ :=
  match lo with
  | none => slotUpper up v
  | some l => if slotUpper up v < l then 2 * l - slotUpper up v else slotUpper up v

/-- Whether one component triggers a violation during a pass (the upper
check sees the incoming value, the lower check the upper-reflected one). -/
def slotOob (up lo : Option ℚ) (v : ℚ) : Bool :=
  (match up with | none => false | some u => decide (u < v)) ||
  (match lo with | none => false | some l => decide (slotUpper up v < l))

/-- Termination potential of one component: how many wall-widths the value
lies outside the feasible region (1/0 for a single wall). -/
def slotPhi (up lo : Option ℚ) (v : ℚ) : Nat :=
  match up, lo with
  | none, none => 0
  | some u, none => if u < v then 1 else 0
  | none, some l => if v < l then 1 else 0
  | some u, some l => (⌈max (v - u) (l - v) / (u - l)⌉).toNat

theorem slotStep_eq_of_not_oob (up lo : Option ℚ) (v : ℚ)
    (h : slotOob up lo v = false) : slotStep up lo v = v := by
  rcases up with _ | u <;> rcases lo with _ | l <;>
    simp only [slotOob, slotUpper, Bool.or_eq_false_iff,
      decide_eq_false_iff_not] at h <;>
    simp only [slotStep, slotUpper]
  · rw [if_neg h.2]
  · rw [if_neg h.1]
  · have h2 := h.2
    rw [if_neg h.1] at h2
    rw [if_neg h.1, if_neg h2]

theorem ceilWidths_pos {u l v : ℚ} (hlt : l < u) (hd : 0 < max (v - u) (l - v)) :
    0 < (⌈max (v - u) (l - v) / (u - l)⌉).toNat := by
  have hw : (0 : ℚ) < u - l := by linarith
  have hq : (0 : ℚ) < max (v - u) (l - v) / (u - l) := div_pos hd hw
  have h1 : (0 : ℤ) < ⌈max (v - u) (l - v) / (u - l)⌉ :=
    Int.lt_ceil.mpr (by exact_mod_cast hq)
  omega

theorem ceilWidths_zero {u l v : ℚ} (hlt : l < u) (hd : max (v - u) (l - v) ≤ 0) :
    (⌈max (v - u) (l - v) / (u - l)⌉).toNat = 0 := by
  have hw : (0 : ℚ) < u - l := by linarith
  have hq : max (v - u) (l - v) / (u - l) ≤ 0 :=
    div_nonpos_of_nonpos_of_nonneg hd (le_of_lt hw)
  have h1 : ⌈max (v - u) (l - v) / (u - l)⌉ ≤ (0 : ℤ) :=
    Int.ceil_le.mpr (by exact_mod_cast hq)
  omega

theorem slotPhi_decrease (up lo : Option ℚ) (v : ℚ)
    (hwf : ∀ u ∈ up, ∀ l ∈ lo, l < u)
    (h : slotOob up lo v = true) :
    slotPhi up lo (slotStep up lo v) < slotPhi up lo v := by
  rcases up with _ | u <;> rcases lo with _ | l
  · simp [slotOob] at h
  · -- only a lower wall
    simp only [slotOob, slotUpper, Bool.false_or, decide_eq_true_eq] at h
    simp only [slotStep, slotUpper, slotPhi]
    have hstep : (if v < l then 2 * l - v else v) = 2 * l - v := if_pos h
    simp only [hstep]
    rw [if_neg (by linarith : ¬ (2 * l - v < l)), if_pos h]
    omega
  · -- only an upper wall
    simp only [slotOob, Bool.or_false, decide_eq_true_eq] at h
    simp only [slotStep, slotUpper, slotPhi]
    have hstep : (if u < v then 2 * u - v else v) = 2 * u - v := if_pos h
    simp only [hstep]
    rw [if_neg (by linarith : ¬ (u < 2 * u - v)), if_pos h]
    omega
  · -- both walls
    have hlt : l < u := hwf u rfl l rfl
    have hw : (0 : ℚ) < u - l := by linarith
    have hw0 : (u - l) ≠ 0 := ne_of_gt hw
    simp only [slotOob, slotUpper, Bool.or_eq_true, decide_eq_true_eq] at h
    simp only [slotStep, slotUpper, slotPhi]
    by_cases hu : u < v
    · have hS : (if u < v then 2 * u - v else v) = 2 * u - v := if_pos hu
      simp only [hS]
      have hDv : max (v - u) (l - v) = v - u :=
        max_eq_left (by linarith)
      by_cases hl1 : 2 * u - v < l
      · rw [if_pos hl1]
        -- double reflection: the value moves down by twice the wall width
        have hgap : u - l < v - u := by linarith
        by_cases h2 : v - u ≤ 2 * (u - l)
        · -- lands inside: potential drops to zero
          have hd : max (2 * l - (2 * u - v) - u) (l - (2 * l - (2 * u - v))) ≤ 0 := by
            apply max_le <;> linarith
          rw [ceilWidths_zero hlt hd]
          exact ceilWidths_pos hlt (by rw [hDv]; linarith)
        · -- still above: potential drops by two
          push_neg at h2
          have hd : max (2 * l - (2 * u - v) - u) (l - (2 * l - (2 * u - v)))
              = (v - u) - 2 * (u - l) := by
            rw [max_eq_left] <;> linarith
          rw [hd, hDv]
          have hdiveq : ((v - u) - 2 * (u - l)) / (u - l) = (v - u) / (u - l) - 2 := by
            field_simp
            ring
          rw [hdiveq]
          have hshift : ⌈(v - u) / (u - l) - 2⌉ = ⌈(v - u) / (u - l)⌉ - 2 := by
            have h0 := Int.ceil_sub_int ((v - u) / (u - l)) 2
            push_cast at h0
            exact_mod_cast h0
          rw [hshift]
          have h3 : 2 < (v - u) / (u - l) := by
            rw [lt_div_iff₀ hw]
            linarith
          have h5 : (2 : ℤ) < ⌈(v - u) / (u - l)⌉ :=
            Int.lt_ceil.mpr (by exact_mod_cast h3)
          omega
      · rw [if_neg hl1]
        -- single reflection lands inside [l, u]
        have hd : max (2 * u - v - u) (l - (2 * u - v)) ≤ 0 := by
          apply max_le <;> linarith
        rw [ceilWidths_zero hlt hd]
        exact ceilWidths_pos hlt (by rw [hDv]; linarith)
    · have hS : (if u < v then 2 * u - v else v) = v := if_neg hu
      simp only [hS]
      have hv : v < l := by
        rcases h with h | h
        · exact absurd h hu
        · rwa [if_neg hu] at h
      rw [if_pos hv]
      have hDv : max (v - u) (l - v) = l - v :=
        max_eq_right (by linarith)
      by_cases h2 : l - v ≤ u - l
      · -- lands inside: potential drops to zero
        have hd : max (2 * l - v - u) (l - (2 * l - v)) ≤ 0 := by
          apply max_le <;> linarith
        rw [ceilWidths_zero hlt hd]
        exact ceilWidths_pos hlt (by rw [hDv]; linarith)
      · -- overshoots above the upper wall: potential drops by one
        push_neg at h2
        have hd : max (2 * l - v - u) (l - (2 * l - v)) = (l - v) - (u - l) := by
          rw [max_eq_left] <;> linarith
        rw [hd, hDv]
        have hdiveq : ((l - v) - (u - l)) / (u - l) = (l - v) / (u - l) - 1 := by
          field_simp
        rw [hdiveq]
        have hshift : ⌈(l - v) / (u - l) - 1⌉ = ⌈(l - v) / (u - l)⌉ - 1 := by
          have h0 := Int.ceil_sub_int ((l - v) / (u - l)) 1
          push_cast at h0
          exact_mod_cast h0
        rw [hshift]
        have h3 : 1 < (l - v) / (u - l) := by
          rw [lt_div_iff₀ hw]
          linarith
        have h5 : (1 : ℤ) < ⌈(l - v) / (u - l)⌉ :=
          Int.lt_ceil.mpr (by exact_mod_cast h3)
        omega

theorem getElem?_eq_some_getD {t : List ℚ} {j : Nat} (h : j < t.length) :
    t[j]? = some (t.getD j 0) := by
  rw [List.getD_eq_getElem?_getD, List.getElem?_eq_getElem h]
  rfl

theorem getElem?_slice_eq {t : List ℚ} {i0 N k : Nat} (hk : k < N)
    (h : i0 + N ≤ t.length) :
    (slice t i0 N)[k]? = some (t.getD (i0 + k) 0) := by
  rw [getElem?_slice, if_pos hk, getElem?_eq_some_getD (by omega)]

theorem any_slice_iff (p : ℚ → Bool) (t : List ℚ) (i0 N : Nat)
    (h : i0 + N ≤ t.length) :
    ((slice t i0 N).any p = true) ↔
      ∃ k, k < N ∧ p (t.getD (i0 + k) 0) = true := by
  rw [List.any_eq_true]
  constructor
  · rintro ⟨x, hx, hpx⟩
    rcases List.mem_iff_getElem.mp hx with ⟨k, hk, rfl⟩
    have hk' : k < N := by
      have := slice_length t i0 N h
      omega
    refine ⟨k, hk', ?_⟩
    have h1 : (slice t i0 N)[k]? = some ((slice t i0 N)[k]) :=
      List.getElem?_eq_getElem hk
    rw [getElem?_slice_eq hk' h] at h1
    rw [← Option.some_injective _ h1.symm]
    exact hpx
  · rintro ⟨k, hk, hpk⟩
    have hk2 : k < (slice t i0 N).length := by
      rw [slice_length t i0 N h]
      exact hk
    refine ⟨(slice t i0 N)[k], List.getElem_mem hk2, ?_⟩
    have h1 : (slice t i0 N)[k]? = some ((slice t i0 N)[k]) :=
      List.getElem?_eq_getElem hk2
    rw [getElem?_slice_eq hk h] at h1
    rw [Option.some_injective _ h1.symm]
    exact hpk

/-- What one entry's step does, slot by slot: components of the entry's
range are mapped through `slotStep`, components outside are untouched, and
the violation flag accumulates exactly the entry's per-component
`slotOob`s. -/
theorem ccEntryStep_char (e : ThetaDescEntry) (st : CCState)
    (hle : e.N ≠ 0 → e.i0 + e.N ≤ st.theta.length) :
    (ccEntryStep e st).theta.length = st.theta.length ∧
    (∀ k, k < e.N →
      (ccEntryStep e st).theta[e.i0 + k]? =
        some (slotStep e.upper e.lower (st.theta.getD (e.i0 + k) 0))) ∧
    (∀ j, j < e.i0 ∨ e.i0 + e.N ≤ j →
      (ccEntryStep e st).theta[j]? = st.theta[j]?) ∧
    ((ccEntryStep e st).oob = true ↔ st.oob = true ∨
      ∃ k, k < e.N ∧ slotOob e.upper e.lower (st.theta.getD (e.i0 + k) 0) = true) := by
  by_cases hN : e.N = 0
  · -- empty range: the slice is empty, nothing happens
    have hsl : slice st.theta e.i0 e.N = [] := by
      simp [slice, hN]
    have hth : (ccEntryStep e st).theta = st.theta := by
      rw [ccEntryStep]
      rcases hu : e.upper with _ | u <;> rcases hl : e.lower with _ | l <;>
        simp [hsl, setSlice_nil]
    have hoob : (ccEntryStep e st).oob = st.oob := by
      rw [ccEntryStep]
      rcases hu : e.upper with _ | u <;> rcases hl : e.lower with _ | l <;>
        simp [hsl]
    refine ⟨by rw [hth], fun k hk => absurd hk (by omega), fun j _ => by rw [hth], ?_⟩
    rw [hoob]
    constructor
    · exact Or.inl
    · rintro (h | ⟨k, hk, _⟩)
      · exact h
      · omega
  · have hle' : e.i0 + e.N ≤ st.theta.length := hle hN
    have hvl : (slice st.theta e.i0 e.N).length = e.N := slice_length _ _ _ hle'
    -- common scaffolding, parametrized by the written slice and the flag
    have main : ∀ (V : List ℚ) (O : Bool),
        (ccEntryStep e st).theta = setSlice st.theta e.i0 V →
        (ccEntryStep e st).oob = O →
        V.length = e.N →
        (∀ k, k < e.N → V[k]? =
          some (slotStep e.upper e.lower (st.theta.getD (e.i0 + k) 0))) →
        (O = true ↔ st.oob = true ∨ ∃ k, k < e.N ∧
          slotOob e.upper e.lower (st.theta.getD (e.i0 + k) 0) = true) →
        (ccEntryStep e st).theta.length = st.theta.length ∧
        (∀ k, k < e.N →
          (ccEntryStep e st).theta[e.i0 + k]? =
            some (slotStep e.upper e.lower (st.theta.getD (e.i0 + k) 0))) ∧
        (∀ j, j < e.i0 ∨ e.i0 + e.N ≤ j →
          (ccEntryStep e st).theta[j]? = st.theta[j]?) ∧
        ((ccEntryStep e st).oob = true ↔ st.oob = true ∨
          ∃ k, k < e.N ∧
            slotOob e.upper e.lower (st.theta.getD (e.i0 + k) 0) = true) := by
      intro V O hth hoob hVl hVget hOiff
      refine ⟨?_, ?_, ?_, ?_⟩
      · rw [hth, length_setSlice _ _ _ (fun _ => by omega)]
      · intro k hk
        rw [hth, getElem?_setSlice _ _ _ _ (by omega),
          if_pos (by omega : e.i0 ≤ e.i0 + k ∧ e.i0 + k < e.i0 + V.length)]
        have : e.i0 + k - e.i0 = k := by omega
        rw [this]
        exact hVget k hk
      · intro j hj
        rw [hth, getElem?_setSlice _ _ _ _ (by omega), if_neg (by omega)]
      · rw [hoob]
        exact hOiff
    rcases hu : e.upper with _ | u <;> rcases hl : e.lower with _ | l <;>
      rw [hu, hl] at main
    · -- no walls: the slice is written back unchanged
      refine main (slice st.theta e.i0 e.N) st.oob ?_ ?_ hvl ?_ ?_
      · rw [ccEntryStep, hu, hl]
      · rw [ccEntryStep, hu, hl]
      · intro k hk
        rw [getElem?_slice_eq hk hle']
        simp [slotStep, slotUpper]
      · constructor
        · exact Or.inl
        · rintro (h | ⟨k, _, hk⟩)
          · exact h
          · simp [slotOob, slotUpper] at hk
    · -- lower wall only
      refine main ((slice st.theta e.i0 e.N).map (fun v => if v < l then 2 * l - v else v))
        (st.oob || (slice st.theta e.i0 e.N).any (fun v => decide (v < l)))
        ?_ ?_ (by rw [List.length_map, hvl]) ?_ ?_
      · rw [ccEntryStep, hu, hl]
      · rw [ccEntryStep, hu, hl]
      · intro k hk
        rw [List.getElem?_map, getElem?_slice_eq hk hle']
        simp [slotStep, slotUpper]
      · rw [Bool.or_eq_true,
          any_slice_iff (fun v => decide (v < l)) st.theta e.i0 e.N hle']
        constructor
        · rintro (h | ⟨k, hk, hp⟩)
          · exact Or.inl h
          · exact Or.inr ⟨k, hk, by simpa [slotOob, slotUpper] using hp⟩
        · rintro (h | ⟨k, hk, hp⟩)
          · exact Or.inl h
          · exact Or.inr ⟨k, hk, by simpa [slotOob, slotUpper] using hp⟩
    · -- upper wall only
      refine main ((slice st.theta e.i0 e.N).map (fun v => if u < v then 2 * u - v else v))
        (st.oob || (slice st.theta e.i0 e.N).any (fun v => decide (u < v)))
        ?_ ?_ (by rw [List.length_map, hvl]) ?_ ?_
      · rw [ccEntryStep, hu, hl]
      · rw [ccEntryStep, hu, hl]
      · intro k hk
        rw [List.getElem?_map, getElem?_slice_eq hk hle']
        simp [slotStep, slotUpper]
      · rw [Bool.or_eq_true,
          any_slice_iff (fun v => decide (u < v)) st.theta e.i0 e.N hle']
        constructor
        · rintro (h | ⟨k, hk, hp⟩)
          · exact Or.inl h
          · exact Or.inr ⟨k, hk, by simpa [slotOob, slotUpper] using hp⟩
        · rintro (h | ⟨k, hk, hp⟩)
          · exact Or.inl h
          · exact Or.inr ⟨k, hk, by simpa [slotOob, slotUpper] using hp⟩
    · -- both walls
      refine main
        (((slice st.theta e.i0 e.N).map (fun v => if u < v then 2 * u - v else v)).map
          (fun v => if v < l then 2 * l - v else v))
        ((st.oob || (slice st.theta e.i0 e.N).any (fun v => decide (u < v))) ||
          ((slice st.theta e.i0 e.N).map (fun v => if u < v then 2 * u - v else v)).any
            (fun v => decide (v < l)))
        ?_ ?_ (by rw [List.length_map, List.length_map, hvl]) ?_ ?_
      · rw [ccEntryStep, hu, hl]
      · rw [ccEntryStep, hu, hl]
      · intro k hk
        rw [List.getElem?_map, List.getElem?_map, getElem?_slice_eq hk hle']
        simp [slotStep, slotUpper]
      · rw [List.any_map, Bool.or_eq_true, Bool.or_eq_true,
          any_slice_iff (fun v => decide (u < v)) st.theta e.i0 e.N hle',
          any_slice_iff _ st.theta e.i0 e.N hle']
        simp only [Function.comp]
        constructor
        · rintro ((h | ⟨k, hk, hp⟩) | ⟨k, hk, hp⟩)
          · exact Or.inl h
          · refine Or.inr ⟨k, hk, ?_⟩
            simp only [slotOob, slotUpper, Bool.or_eq_true, decide_eq_true_eq]
            exact Or.inl (of_decide_eq_true hp)
          · exact Or.inr ⟨k, hk, by
              simp only [slotOob, slotUpper, Bool.or_eq_true, decide_eq_true_eq]
              right
              simpa using hp⟩
        · rintro (h | ⟨k, hk, hp⟩)
          · exact Or.inl (Or.inl h)
          · simp only [slotOob, slotUpper, Bool.or_eq_true, decide_eq_true_eq] at hp
            rcases hp with hp | hp
            · exact Or.inl (Or.inr ⟨k, hk, by simpa using hp⟩)
            · exact Or.inr ⟨k, hk, by simpa using hp⟩

theorem getD_congr {t t' : List ℚ} {j : Nat} (h : t[j]? = t'[j]?) :
    t.getD j 0 = t'.getD j 0 := by
  rw [List.getD_eq_getElem?_getD, List.getD_eq_getElem?_getD, h]

/-- What one full entry fold does, slot by slot, for a descriptor with
disjoint ranges: every covered slot is mapped through its entry's
`slotStep` (each entry sees the incoming values — disjointness), uncovered
slots are untouched, and the flag accumulates every component's
`slotOob`. -/
theorem ccFold_char (desc : List ThetaDescEntry) :
    ∀ st : CCState,
      (covers desc).Nodup →
      (∀ e ∈ desc, e.N ≠ 0 → e.i0 + e.N ≤ st.theta.length) →
      ((desc.foldl (fun st e => ccEntryStep e st) st).theta.length
          = st.theta.length) ∧
      (∀ e ∈ desc, ∀ k, k < e.N →
        (desc.foldl (fun st e => ccEntryStep e st) st).theta[e.i0 + k]? =
          some (slotStep e.upper e.lower (st.theta.getD (e.i0 + k) 0))) ∧
      (∀ j, j ∉ covers desc →
        (desc.foldl (fun st e => ccEntryStep e st) st).theta[j]? =
          st.theta[j]?) ∧
      ((desc.foldl (fun st e => ccEntryStep e st) st).oob = true ↔
        st.oob = true ∨ ∃ e ∈ desc, ∃ k, k < e.N ∧
          slotOob e.upper e.lower (st.theta.getD (e.i0 + k) 0) = true) := by
  induction desc with
  | nil =>
      intro st _ _
      refine ⟨rfl, fun e he => absurd he (List.not_mem_nil _), fun j _ => rfl, ?_⟩
      constructor
      · exact Or.inl
      · rintro (h | ⟨e, he, _⟩)
        · exact h
        · exact absurd he (List.not_mem_nil _)
  | cons f rest ih =>
      intro st hnd hle
      obtain ⟨hlen1, hin1, hout1, hoob1⟩ :=
        ccEntryStep_char f st (hle f (List.mem_cons_self _ _))
      rw [covers_cons_append, List.nodup_append] at hnd
      obtain ⟨ihlen, ihin, ihout, ihoob⟩ := ih (ccEntryStep f st) hnd.2.1
        (fun e he hN => hlen1 ▸ hle e (List.mem_cons_of_mem _ he) hN)
      rw [List.foldl_cons]
      have hnotf : ∀ j, j ∉ covers [f] → (ccEntryStep f st).theta[j]? = st.theta[j]? := by
        intro j hj
        refine hout1 j ?_
        have h2 : ¬(f.i0 ≤ j ∧ j < f.i0 + f.N) :=
          fun hc => hj (mem_covers_singleton.mpr hc)
        omega
      have hgd : ∀ j, j ∉ covers [f] →
          (ccEntryStep f st).theta.getD j 0 = st.theta.getD j 0 :=
        fun j hj => getD_congr (hnotf j hj)
      refine ⟨ihlen.trans hlen1, ?_, ?_, ?_⟩
      · intro e he k hk
        rcases List.mem_cons.mp he with rfl | he'
        · have hjf : e.i0 + k ∈ covers [e] :=
            mem_covers_singleton.mpr ⟨by omega, by omega⟩
          have hjrest : e.i0 + k ∉ covers rest := fun hc => hnd.2.2 hjf hc
          rw [ihout _ hjrest]
          exact hin1 k hk
        · have hjrest : e.i0 + k ∈ covers rest :=
            mem_covers.mpr ⟨e, he', by omega, by omega⟩
          have hjf : e.i0 + k ∉ covers [f] := fun hc => hnd.2.2 hc hjrest
          rw [ihin e he' k hk, hgd _ hjf]
      · intro j hj
        rw [covers_cons_append, List.mem_append] at hj
        push_neg at hj
        rw [ihout j hj.2]
        exact hnotf j hj.1
      · rw [ihoob, hoob1]
        constructor
        · rintro ((h | ⟨k, hk, hp⟩) | ⟨e, he, k, hk, hp⟩)
          · exact Or.inl h
          · exact Or.inr ⟨f, List.mem_cons_self _ _, k, hk, hp⟩
          · refine Or.inr ⟨e, List.mem_cons_of_mem _ he, k, hk, ?_⟩
            have hjrest : e.i0 + k ∈ covers rest :=
              mem_covers.mpr ⟨e, he, by omega, by omega⟩
            have hjf : e.i0 + k ∉ covers [f] := fun hc => hnd.2.2 hc hjrest
            rwa [hgd _ hjf] at hp
        · rintro (h | ⟨e, he, k, hk, hp⟩)
          · exact Or.inl (Or.inl h)
          · rcases List.mem_cons.mp he with rfl | he'
            · exact Or.inl (Or.inr ⟨k, hk, hp⟩)
            · refine Or.inr ⟨e, he', k, hk, ?_⟩
              have hjrest : e.i0 + k ∈ covers rest :=
                mem_covers.mpr ⟨e, he', by omega, by omega⟩
              have hjf : e.i0 + k ∉ covers [f] := fun hc => hnd.2.2 hc hjrest
              rwa [hgd _ hjf]

/-- The pass-level restatement: `ccPass` resets `oob`, so the returned flag
holds exactly when some component violated a wall during the pass. -/
theorem ccPass_char (desc : List ThetaDescEntry) (st : CCState)
    (hnd : (covers desc).Nodup)
    (hle : ∀ e ∈ desc, e.N ≠ 0 → e.i0 + e.N ≤ st.theta.length) :
    ((ccPass desc st).theta.length = st.theta.length) ∧
    (∀ e ∈ desc, ∀ k, k < e.N →
      (ccPass desc st).theta[e.i0 + k]? =
        some (slotStep e.upper e.lower (st.theta.getD (e.i0 + k) 0))) ∧
    (∀ j, j ∉ covers desc → (ccPass desc st).theta[j]? = st.theta[j]?) ∧
    ((ccPass desc st).oob = true ↔ ∃ e ∈ desc, ∃ k, k < e.N ∧
        slotOob e.upper e.lower (st.theta.getD (e.i0 + k) 0) = true) := by
  obtain ⟨h1, h2, h3, h4⟩ := ccFold_char desc { st with oob := false } hnd hle
  refine ⟨h1, h2, h3, ?_⟩
  rw [ccPass, h4]
  simp

/-- All (entry, component) pairs of a descriptor. -/
def slotList (desc : List ThetaDescEntry) : List (ThetaDescEntry × Nat) :=
  (desc.map (fun e => (List.range e.N).map (fun k => (e, k)))).flatten

/-- The total termination potential of a `theta` vector: the sum of the
per-component potentials. -/
def passPhi (desc : List ThetaDescEntry) (theta : List ℚ) : Nat :=
  ((slotList desc).map (fun p =>
    slotPhi p.1.upper p.1.lower (theta.getD (p.1.i0 + p.2) 0))).sum

theorem mem_slotList {desc : List ThetaDescEntry} {p : ThetaDescEntry × Nat} :
    p ∈ slotList desc ↔ p.1 ∈ desc ∧ p.2 < p.1.N := by
  simp only [slotList, List.mem_flatten, List.mem_map]
  constructor
  · rintro ⟨l, ⟨e, he, rfl⟩, hp⟩
    rcases List.mem_map.mp hp with ⟨k, hk, rfl⟩
    exact ⟨he, by simpa using List.mem_range.mp hk⟩
  · rintro ⟨h1, h2⟩
    exact ⟨_, ⟨p.1, h1, rfl⟩,
      List.mem_map.mpr ⟨p.2, List.mem_range.mpr h2, by simp⟩⟩

/-- A violating pass strictly decreases the total potential. -/
theorem ccPass_phi (desc : List ThetaDescEntry) (st : CCState)
    (hnd : (covers desc).Nodup)
    (hle : ∀ e ∈ desc, e.N ≠ 0 → e.i0 + e.N ≤ st.theta.length)
    (hwf : ∀ e ∈ desc, ∀ u ∈ e.upper, ∀ l ∈ e.lower, l < u)
    (hoob : (ccPass desc st).oob = true) :
    passPhi desc (ccPass desc st).theta < passPhi desc st.theta := by
  obtain ⟨hlen, hin, hout, hoobiff⟩ := ccPass_char desc st hnd hle
  have hval : ∀ p : ThetaDescEntry × Nat, p ∈ slotList desc →
      (ccPass desc st).theta.getD (p.1.i0 + p.2) 0 =
        slotStep p.1.upper p.1.lower (st.theta.getD (p.1.i0 + p.2) 0) := by
    intro p hp
    rcases mem_slotList.mp hp with ⟨h1, h2⟩
    rw [List.getD_eq_getElem?_getD, hin p.1 h1 p.2 h2]
    rfl
  rw [passPhi, passPhi]
  apply List.sum_lt_sum
  · intro p hp
    rcases mem_slotList.mp hp with ⟨h1, h2⟩
    rw [hval p hp]
    by_cases hv : slotOob p.1.upper p.1.lower (st.theta.getD (p.1.i0 + p.2) 0) = true
    · exact le_of_lt (slotPhi_decrease _ _ _ (hwf p.1 h1) hv)
    · rw [slotStep_eq_of_not_oob _ _ _ (Bool.eq_false_iff.mpr hv)]
  · rcases hoobiff.mp hoob with ⟨e, he, k, hk, hp⟩
    refine ⟨(e, k), mem_slotList.mpr ⟨he, hk⟩, ?_⟩
    rw [hval (e, k) (mem_slotList.mpr ⟨he, hk⟩)]
    exact slotPhi_decrease _ _ _ (hwf e he) hp

/-- Enough fuel: one pass more than the initial potential always suffices. -/
theorem ccLoop_terminates (desc : List ThetaDescEntry)
    (hnd : (covers desc).Nodup)
    (hwf : ∀ e ∈ desc, ∀ u ∈ e.upper, ∀ l ∈ e.lower, l < u) :
    ∀ (n : Nat) (st : CCState),
      (∀ e ∈ desc, e.N ≠ 0 → e.i0 + e.N ≤ st.theta.length) →
      passPhi desc st.theta ≤ n →
      (ccLoop desc (n + 1) st).isSome := by
  intro n
  induction n with
  | zero =>
      intro st hle hphi
      simp only [ccLoop]
      by_cases hoob : (ccPass desc st).oob
      · exfalso
        have := ccPass_phi desc st hnd hle hwf hoob
        omega
      · rw [if_neg hoob]
        rfl
  | succ n ih =>
      intro st hle hphi
      simp only [ccLoop]
      by_cases hoob : (ccPass desc st).oob
      · rw [if_pos hoob]
        have hlt := ccPass_phi desc st hnd hle hwf hoob
        have hlen := (ccPass_char desc st hnd hle).1
        exact ih (ccPass desc st) (fun e he hN => hlen ▸ hle e he hN) (by omega)
      · rw [if_neg hoob]
        rfl

/-- C3.  Reflection termination: for every `theta` (exact rationals model
the finite floats) and every descriptor whose ranges partition the vector
and whose walls satisfy `lower < upper` wherever both are declared, the
`check_constrained` reflection loop terminates — some finite number of
passes reaches a state with no remaining violations, because each
reflection strictly reduces the violation magnitude. -/
theorem check_constrained_terminates (desc : List ThetaDescEntry) (theta : List ℚ)
    (hpart : partitions desc theta.length)
    (hwf : ∀ e ∈ desc, ∀ u ∈ e.upper, ∀ l ∈ e.lower, l < u) :
    ∃ fuel, (check_constrained desc theta fuel).isSome := by
  refine ⟨passPhi desc theta + 1, ?_⟩
  have hnd : (covers desc).Nodup := hpart.nodup_iff.mpr (List.nodup_range _)
  rw [check_constrained]
  exact ccLoop_terminates desc hnd hwf (passPhi desc theta)
    { theta := theta, sign := List.replicate theta.length 1, oob := true }
    (fun e he hN => entry_range_le_of_partitions hpart e he hN)
    (le_refl _)

/-- Witness for C3 at the concrete descriptor `descR` and the out-of-bounds
input `[1.3]`. -/
theorem check_constrained_terminates_witness :
    ∃ fuel, (check_constrained descR [13/10] fuel).isSome :=
  check_constrained_terminates descR [13/10] (by decide)
    (by
      intro e he u hu l hl
      have hee : e = { name := "p", i0 := 0, N := 1, upper := some 1 } :=
        List.mem_singleton.mp he
      rw [hee] at hl
      simp at hl)

/-!
Calibration (`SedModel.spec_calibration` and `PolySedModel.spec_calibration`
in `prospect/models/sedmodel.py`).
-/

/-- The observation fields read by the calibration code: the wavelength
grid, the boolean mask (`obs.get('mask', slice(None))`; the all-`true` mask
models the default full slice), and, for the least-squares variant, the
observed spectrum and its uncertainties. -/
structure Obs where
  wavelength : List ℚ
  mask : List Bool
  spectrum : Option (List ℚ) := none
  unc : List ℚ := []

/-- The `self.params` entries read by the calibration methods (each a
`params.get` with the defaults used by the source). -/
structure CalParams where
  poly_coeffs : Option (List ℚ) := none
  cal_type : Option String := none
  spec_norm : Option ℚ := none
  polyorder : Option Nat := none
  poly_regularization : Option ℚ := none

/-- Chebyshev polynomial of the first kind, `T_n`. -/
def chebT : Nat → ℚ → ℚ
  | 0, _ => 1
  | 1, x => x
  | n + 2, x => 2 * x * chebT (n + 1) x - chebT n x

/-- Mathematical model of numpy's `chebval(x, c)`: the Chebyshev series
`sum_i c_i * T_i(x)` (numpy evaluates the same series by Clenshaw
recursion). -/
def chebval (c : List ℚ) (x : ℚ) : ℚ :=
  (c.enum.map (fun p => p.2 * chebT p.1 x)).sum

/-- Boolean-mask selection `xs[mask]`. -/
def maskSel (xs : List ℚ) (mask : List Bool) : List ℚ :=
  ((xs.zip mask).filter (fun p => p.2)).map (·.1)

/-- The canonical-domain abscissas computed by both calibration variants:
`x = wavelength - (wavelength[mask]).min()` then
`x = 2.0 * (x / (x[mask]).max()) - 1.0`.
A `none` result models the numpy `ValueError` on an empty masked
reduction.  When all masked wavelengths are equal, numpy divides by zero
and produces non-finite floats that ℚ cannot represent; ℚ division is then
total with `x / 0 = 0`, and the theorems below assume a non-degenerate
mask. -/
def calX (obs : Obs) : Option (List ℚ) :=
  ((maskSel obs.wavelength obs.mask).min?).bind (fun m0 =>
    ((maskSel (obs.wavelength.map (fun w => w - m0)) obs.mask).max?).map (fun mx =>
      (obs.wavelength.map (fun w => w - m0)).map (fun x => 2 * (x / mx) - 1)))

/-- Return value of `spec_calibration`, kept symbolic in the exponential
branch (ℚ has no `exp`): `poly vals` is the final multiplicative curve,
`expPoly es` carries the exponents to which numpy applies `np.exp`, and
`const c` is the no-coefficients fallback. -/
inductive CalCurve where
  | poly (vals : List ℚ)
  | expPoly (exponents : List ℚ)
  | const (c : ℚ)
  deriving DecidableEq

/-- Model of `SedModel.spec_calibration`: when `poly_coeffs` is present,
prepend a fixed 0 constant coefficient (`np.insert(c, 0, 0)`), evaluate the
Chebyshev series on the canonical abscissas, and branch on `cal_type`
(the source compares `self.params.get('cal_type', 'exp_poly') is 'poly'`,
an identity comparison on interned literals modelled as string equality):
`"poly"` gives `(1 + poly) * spec_norm` (default 1), anything else gives
`exp(spec_norm + poly)` with `spec_norm` defaulting to 0; without
`poly_coeffs` the result is the constant `1.0 * spec_norm`. -/
def spec_calibration (p : CalParams) (obs : Obs) : Option CalCurve :=
  match p.poly_coeffs with
  | some coeffs =>
      (calX obs).map (fun x =>
        let c := 0 :: coeffs
        let poly := x.map (chebval c)
        if p.cal_type.getD "exp_poly" = "poly" then
          CalCurve.poly (poly.map (fun pv => (1 + pv) * p.spec_norm.getD 1))
        else
          CalCurve.expPoly (poly.map (fun pv => p.spec_norm.getD 0 + pv)))
  | none => some (CalCurve.const (1 * p.spec_norm.getD 1))

/-- Mathematical model of `np.linalg.inv`: defined (via the adjugate) iff
the matrix is nonsingular; `none` models the `LinAlgError` numpy raises on
a singular matrix. -/
def matInv {n : Nat} (M : Matrix (Fin n) (Fin n) ℚ) :
    Option (Matrix (Fin n) (Fin n) ℚ) :=
  if M.det = 0 then none else some (M.det⁻¹ • M.adjugate)

/-- Model of `PolySedModel.spec_calibration`.  When a positive `polyorder`
is requested and an observed spectrum exists, it least-squares fits
Chebyshev coefficients (constant term excluded) to the masked fractional
residual `obs['spectrum']/self._spec - 1`, weighting by the inverse squared
fractional uncertainty, optionally adding `reg**2` to the normal-equations
diagonal when any regularization is positive, and evaluates the fitted
polynomial over the full grid; otherwise it returns `1.0`.  `modelSpec` is
`self._spec`, the raw model spectrum stored by `sed`. -/
def poly_spec_calibration (p : CalParams) (obs : Obs) (modelSpec : List ℚ) :
    Option CalCurve :=
  match obs.spectrum, p.polyorder.getD 0 with
  | some spec, order + 1 =>
      (calX obs).bind (fun x =>
        let xm := maskSel x obs.mask
        let y := (maskSel (List.zipWith (· / ·) spec modelSpec) obs.mask).map
          (fun r => r - 1)
        let yvar := (maskSel (List.zipWith (· / ·) obs.unc modelSpec) obs.mask).map
          (fun e => e ^ 2)
        let ATA0 : Matrix (Fin (order + 1)) (Fin (order + 1)) ℚ :=
          fun j k => ((List.range xm.length).map (fun i =>
            chebT (j.val + 1) (xm.getD i 0) *
              (chebT (k.val + 1) (xm.getD i 0) / yvar.getD i 0))).sum
        let reg := p.poly_regularization.getD 0
        let ATA := if 0 < reg then
            ATA0 + reg ^ 2 • (1 : Matrix (Fin (order + 1)) (Fin (order + 1)) ℚ)
          else ATA0
        (matInv ATA).map (fun ATAinv =>
          let ATy : Fin (order + 1) → ℚ := fun j =>
            ((List.range xm.length).map (fun i =>
              chebT (j.val + 1) (xm.getD i 0) * (y.getD i 0 / yvar.getD i 0))).sum
          let c : Fin (order + 1) → ℚ := ATAinv.mulVec ATy
          let poly := x.map (fun xt => ∑ j : Fin (order + 1), chebT (j.val + 1) xt * c j)
          CalCurve.poly (poly.map (fun pv => (1 + pv) * p.spec_norm.getD 1))))
  | _, _ => some (CalCurve.const 1)

theorem maskSel_cons (x : ℚ) (xs : List ℚ) (b : Bool) (m : List Bool) :
    maskSel (x :: xs) (b :: m) = if b then x :: maskSel xs m else maskSel xs m := by
  by_cases hb : b <;> simp [maskSel, hb]

/-- Masking commutes with a pointwise map on the values. -/
theorem maskSel_map (f : ℚ → ℚ) :
    ∀ (xs : List ℚ) (mask : List Bool),
      maskSel (xs.map f) mask = (maskSel xs mask).map f := by
  intro xs
  induction xs with
  | nil => intro mask; simp [maskSel]
  | cons x xs ih =>
      intro mask
      cases mask with
      | nil => simp [maskSel]
      | cons b m =>
          rw [List.map_cons, maskSel_cons, maskSel_cons]
          by_cases hb : b <;> simp [hb, ih]

/-- Shifting every element shifts the maximum. -/
theorem max?_map_sub {l : List ℚ} {m : ℚ} (c : ℚ) (h : l.max? = some m) :
    (l.map (fun w => w - c)).max? = some (m - c) := by
  haveI : Std.Antisymm ((· : ℚ) ≤ ·) := ⟨fun h1 h2 => le_antisymm h1 h2⟩
  rw [List.max?_eq_some_iff (fun a => le_refl a) (fun a b => max_choice a b)
    (fun a b c => max_le_iff)] at h
  rw [List.max?_eq_some_iff (fun a => le_refl a) (fun a b => max_choice a b)
    (fun a b c => max_le_iff)]
  refine ⟨List.mem_map.mpr ⟨m, h.1, rfl⟩, ?_⟩
  intro b hb
  rcases List.mem_map.mp hb with ⟨w, hw, rfl⟩
  have := h.2 w hw
  linarith

/-- The abscissas the source computes, in closed form: with a
non-degenerate mask the two-step shift-and-rescale maps wavelength `w` to
`2*(w - mmin)/(mmax - mmin) - 1`. -/
theorem calX_closed (obs : Obs) (mmin mmax : ℚ)
    (hmin : (maskSel obs.wavelength obs.mask).min? = some mmin)
    (hmax : (maskSel obs.wavelength obs.mask).max? = some mmax) :
    calX obs = some (obs.wavelength.map
      (fun w => 2 * ((w - mmin) / (mmax - mmin)) - 1)) := by
  rw [calX, hmin, Option.some_bind]
  have h1 : maskSel (obs.wavelength.map (fun w => w - mmin)) obs.mask
      = (maskSel obs.wavelength obs.mask).map (fun w => w - mmin) :=
    maskSel_map _ _ _
  rw [h1, max?_map_sub mmin hmax, Option.map_some', List.map_map]
  rfl

/-- C5.  Fixed-coefficient calibration: when `poly_coeffs` is present and
`cal_type` is `"poly"`, `spec_calibration` returns the curve
`(1 + P(x)) * spec_norm` pointwise over the wavelength grid, where `P` is
the Chebyshev series whose constant coefficient is fixed to 0 followed by
`poly_coeffs`, and `x` maps the masked wavelengths' minimum to `-1` and
maximum to `+1` (unmasked points may map outside `[-1, 1]`). -/
theorem spec_calibration_poly (p : CalParams) (obs : Obs) (coeffs : List ℚ)
    (mmin mmax : ℚ)
    (hc : p.poly_coeffs = some coeffs)
    (hct : p.cal_type = some "poly")
    (hmin : (maskSel obs.wavelength obs.mask).min? = some mmin)
    (hmax : (maskSel obs.wavelength obs.mask).max? = some mmax)
    (hlt : mmin < mmax) :
    ∃ vals, spec_calibration p obs = some (CalCurve.poly vals) ∧
      vals.length = obs.wavelength.length ∧
      (∀ (t : Nat) (w : ℚ), obs.wavelength[t]? = some w →
        vals[t]? = some ((1 + chebval (0 :: coeffs)
          (2 * ((w - mmin) / (mmax - mmin)) - 1)) * p.spec_norm.getD 1)) ∧
      2 * ((mmin - mmin) / (mmax - mmin)) - 1 = -1 ∧
      2 * ((mmax - mmin) / (mmax - mmin)) - 1 = 1 := by
  have hne : mmax - mmin ≠ 0 := by
    intro hz
    linarith
  refine ⟨obs.wavelength.map (fun w =>
      (1 + chebval (0 :: coeffs) (2 * ((w - mmin) / (mmax - mmin)) - 1)) *
        p.spec_norm.getD 1), ?_, ?_, ?_, ?_, ?_⟩
  · simp only [spec_calibration, hc, calX_closed obs mmin mmax hmin hmax,
      Option.map_some', hct, Option.getD_some, List.map_map]
    rw [if_pos trivial]
    rfl
  · rw [List.length_map]
  · intro t w hw
    rw [List.getElem?_map, hw, Option.map_some']
  · rw [sub_self, zero_div]
    norm_num
  · rw [div_self hne]
    norm_num

/-- Concrete observation and parameters for the calibration scenario of the
spec: two wavelengths both masked, `spec_norm = 2.0`, one coefficient
`0.5`, `cal_type = "poly"`. -/
def obsC5 : Obs := { wavelength := [0, 1], mask := [true, true] }

def pC5 : CalParams :=
  { poly_coeffs := some [1/2], cal_type := some "poly", spec_norm := some 2 }

/-- Witness for C5: at the wavelength that maps to `x = 1` the curve value
is `2.0 * (1 + 0.5 * T_1(1)) = 3.0`. -/
theorem spec_calibration_poly_witness :
    ∃ vals, spec_calibration pC5 obsC5 = some (CalCurve.poly vals) ∧
      vals[1]? = some 3 := by
  obtain ⟨vals, heq, hlen, hval, hm1, hm2⟩ :=
    spec_calibration_poly pC5 obsC5 [1/2] 0 1 rfl rfl rfl rfl (by norm_num)
  refine ⟨vals, heq, ?_⟩
  have h1 := hval 1 1 rfl
  rw [h1]
  norm_num [chebval, chebT, List.enum, List.enumFrom, pC5]

/-- A weighted Gram matrix built from fewer data rows than coefficients is
singular: any nonzero kernel vector of the design matrix is a kernel vector
of the normal-equations matrix. -/
theorem gram_det_zero (nm n : Nat) (A : Matrix (Fin nm) (Fin n) ℚ) (h : nm < n)
    (yvar : Fin nm → ℚ) :
    (Matrix.det (fun j k => ∑ i : Fin nm, A i j * (A i k / yvar i)) : ℚ) = 0 := by
  have hnotinj : ¬ Function.Injective A.mulVecLin := by
    intro hinj
    have := LinearMap.finrank_le_finrank_of_injective hinj
    rw [Module.finrank_fin_fun, Module.finrank_fin_fun] at this
    omega
  rw [← LinearMap.ker_eq_bot] at hnotinj
  rcases Submodule.ne_bot_iff _ |>.mp hnotinj with ⟨v, hv, hv0⟩
  have hAv : A.mulVec v = 0 := hv
  have hAvi : ∀ i, ∑ x : Fin n, A i x * v x = 0 := by
    intro i
    have := congrFun hAv i
    simpa [Matrix.mulVec, Matrix.dotProduct] using this
  rw [← Matrix.exists_mulVec_eq_zero_iff]
  refine ⟨v, hv0, ?_⟩
  funext j
  simp only [Matrix.mulVec, Matrix.dotProduct, Pi.zero_apply]
  calc ∑ x : Fin n, (∑ i : Fin nm, A i j * (A i x / yvar i)) * v x
      = ∑ x : Fin n, ∑ i : Fin nm, (A i j / yvar i) * (A i x * v x) := by
        apply Finset.sum_congr rfl
        intro x _
        rw [Finset.sum_mul]
        apply Finset.sum_congr rfl
        intro i _
        ring
    _ = ∑ i : Fin nm, ∑ x : Fin n, (A i j / yvar i) * (A i x * v x) :=
        Finset.sum_comm
    _ = ∑ i : Fin nm, (A i j / yvar i) * ∑ x : Fin n, (A i x * v x) := by
        apply Finset.sum_congr rfl
        intro i _
        rw [Finset.mul_sum]
    _ = 0 := by
        apply Finset.sum_eq_zero
        intro i _
        rw [hAvi i, mul_zero]

theorem list_range_map_sum (n : Nat) (f : Nat → ℚ) :
    ((List.range n).map f).sum = ∑ i : Fin n, f i.val := by
  rw [Fin.sum_univ_eq_sum_range]
  induction n with
  | zero => rfl
  | succ m ih =>
      rw [List.range_succ, List.map_append, List.sum_append,
        Finset.sum_range_succ, ih]
      simp

/-- List-sum form of the Gram-singularity lemma, matching the shape used in
`poly_spec_calibration`. -/
theorem gram_list_det_zero (nm n : Nat) (h : nm < n)
    (A : Nat → Fin n → ℚ) (w : Nat → ℚ) :
    (Matrix.det (fun j k =>
      ((List.range nm).map (fun i => A i j * (A i k / w i))).sum) : ℚ) = 0 := by
  have hconv : (fun j k : Fin n =>
        ((List.range nm).map (fun i => A i j * (A i k / w i))).sum)
      = (fun j k : Fin n => ∑ i : Fin nm, A i.val j * (A i.val k / w i.val)) := by
    funext j k
    rw [list_range_map_sum]
  rw [hconv]
  exact gram_det_zero nm n (fun i j => A i.val j) h (fun i => w i.val)

/-- C6 (amended).  Singular fit: in the least-squares calibration variant
with zero (or no) regularization, when the requested order strictly exceeds
the number of masked points the normal-equations matrix is exactly singular
and the matrix inversion fails — numpy raises its generic
`numpy.linalg.LinAlgError` (no dedicated `SingularFitError` exists in the
code).  When any regularization is positive, `reg**2` (not `reg`) is added
to the normal-equations diagonal before inversion.  An order merely
exceeding the number of masked points minus one need not fail (see the
counterexample). -/
theorem poly_spec_calibration_singular (p : CalParams) (obs : Obs)
    (modelSpec spec x : List ℚ) (order : Nat)
    (hspec : obs.spectrum = some spec)
    (horder : p.polyorder = some (order + 1))
    (hreg : ¬ 0 < p.poly_regularization.getD 0)
    (hx : calX obs = some x)
    (hnm : (maskSel x obs.mask).length < order + 1) :
    poly_spec_calibration p obs modelSpec = none := by
  have hgd : p.polyorder.getD 0 = order + 1 := by
    rw [horder]
    rfl
  rw [poly_spec_calibration]
  simp only [hspec, hgd, hx, Option.some_bind]
  rw [if_neg hreg]
  rw [matInv, if_pos (gram_list_det_zero _ _ hnm _ _)]
  rfl

/-- Concrete observation for the least-squares calibration: two masked
points, observed spectrum equal to the model spectrum, unit
uncertainties. -/
def obsC6 : Obs :=
  { wavelength := [0, 1], mask := [true, true],
    spectrum := some [1, 1], unc := [1, 1] }

/-- Calibration parameters requesting order 2 with no regularization. -/
def pC6 : CalParams := { polyorder := some 2 }

theorem calX_obsC6 : calX obsC6 = some [-1, 1] := by
  rw [calX_closed obsC6 0 1 rfl rfl]
  norm_num [obsC6]

theorem matInv_map_of_det_ne {n : Nat} (M : Matrix (Fin n) (Fin n) ℚ)
    (F : Matrix (Fin n) (Fin n) ℚ → CalCurve) (c : CalCurve)
    (hdet : ¬ M.det = 0) (hF : ∀ Minv, F Minv = c) :
    Option.map F (matInv M) = some c := by
  rw [matInv, if_neg hdet, Option.map_some', hF]

theorem det_fin_one_add_one (M : Matrix (Fin (1 + 1)) (Fin (1 + 1)) ℚ) :
    M.det = M 0 0 * M 1 1 - M 0 1 * M 1 0 :=
  Matrix.det_fin_two M

theorem sum_univ_one_add_one (f : Fin (1 + 1) → ℚ) : ∑ i, f i = f 0 + f 1 :=
  Fin.sum_univ_two f

/-- Counterexample for C6 as stated: with zero regularization and
`polyorder = 2` exceeding the number of masked points minus one (`2 > 1`),
the normal-equations matrix is nonsingular (`det = 4`) and the fit
succeeds, returning the unit curve — no singular-fit error occurs. -/
theorem poly_spec_calibration_order_counterexample :
    poly_spec_calibration pC6 obsC6 [1, 1] = some (CalCurve.poly [1, 1]) := by
  have hgd : pC6.polyorder.getD 0 = 1 + 1 := rfl
  rw [poly_spec_calibration]
  simp only [show obsC6.spectrum = some [1, 1] from rfl, hgd, calX_obsC6,
    Option.some_bind]
  rw [if_neg (by norm_num [pC6] : ¬ (0:ℚ) < pC6.poly_regularization.getD 0)]
  refine matInv_map_of_det_ne _ _ _ ?_ ?_
  · rw [det_fin_one_add_one]
    norm_num [maskSel, obsC6, chebT, Fin.val_zero, Fin.val_one,
      show List.range 2 = [0, 1] from rfl, List.getD]
  · intro Minv
    norm_num [maskSel, obsC6, pC6, chebT, Matrix.mulVec, Matrix.dotProduct,
      sum_univ_one_add_one, Fin.val_zero, Fin.val_one,
      show List.range 2 = [0, 1] from rfl, List.getD]

/-- Calibration parameters requesting order 3 with no regularization. -/
def pC6b : CalParams := { polyorder := some 3 }

/-- Witness for C6: order 3 against only two masked points (with zero
regularization) makes the normal-equations matrix singular and the fit
fail. -/
theorem poly_spec_calibration_singular_witness :
    poly_spec_calibration pC6b obsC6 [1, 1] = none :=
  poly_spec_calibration_singular pC6b obsC6 [1, 1] [1, 1] [-1, 1] 2
    rfl rfl (by norm_num [pC6b]) calX_obsC6 (by decide)

end SpecProof
